import Mathlib

/-!
Shallow embedding of `quick_array` (src/src/lib.rs): a fixed-capacity slot
arena threading an intrusive doubly-linked "valid" list of occupied slots and
a singly-walked "free" list of unoccupied slots, addressed by `u32` indices
with the sentinel `INVALID_INDEX = 1994090994` standing for "no index".

All `u32` fields are modelled as `Nat`; every value the code stores in them is
either the sentinel or an index below `max_size < INVALID_INDEX`, and the only
arithmetic is `+ 1` / `- 1` on such values, so no `u32` wrap-around can occur
on any path modelled as returning normally.  The two places where the Rust
code's `u32` arithmetic or `Vec` indexing panics in a way a claim depends on
(`init` when `max_size = 0`) are modelled by `Option`, `none` standing for the
panic.  `Vec` indexing is modelled with `List.getD` / `List.set`; every theorem
below quantifies only over states in which all indices the code dereferences
are in bounds, where this agrees with Rust.

The `assert_eq!(target.cur, index)` consistency assertions hold in every
well-formed state considered below (field `cur` of slot `i` equals `i`), so
they are passed through silently.
-/

namespace QuickArrayModel

/-- `QuickArray::<T>::INVALID_INDEX`, the sentinel meaning "no index". -/
def INVALID_INDEX : Nat := 1994090994

/-- `ErrDefine` from src/src/lib.rs. -/
inductive ErrDefine where
  | InvalidIndex
  | ArrayIsFull
  | ArrayIsEmpty
  | ArraySizeError
deriving DecidableEq, Repr

/-- `QuickElement<T>`: one slot of the arena (src/src/lib.rs lines 11-18). -/
structure QuickElement (T : Type) where
  data : T
  pre : Nat
  next : Nat
  cur : Nat
  valid : Bool
deriving DecidableEq, Repr

/-- `QuickElement::default()`: `T::default()`, zero links, `valid = false`. -/
instance [Inhabited T] : Inhabited (QuickElement T) :=
  ⟨{ data := default, pre := 0, next := 0, cur := 0, valid := false }⟩

/-- `QuickArray<T>` (src/src/lib.rs lines 20-28). -/
structure QuickArray (T : Type) where
  max_size : Nat
  free_head : Nat
  valid_head : Nat
  valid_tail : Nat
  valid_count : Nat
  internal_vec : List (QuickElement T)
deriving DecidableEq, Repr

instance : Inhabited (QuickArray T) :=
  ⟨{ max_size := 0, free_head := 0, valid_head := 0, valid_tail := 0,
     valid_count := 0, internal_vec := [] }⟩

variable {T : Type} [Inhabited T]

/-- Read `internal_vec[i]` (in every state a theorem quantifies over, `i` is
in bounds whenever the Rust code performs this read). -/
def getE (a : QuickArray T) (i : Nat) : QuickElement T :=
  a.internal_vec.getD i default

/-- Write `internal_vec[i].field = …` at the vector level. -/
def updL (v : List (QuickElement T)) (i : Nat) (f : QuickElement T → QuickElement T) :
    List (QuickElement T) :=
  v.set i (f (v.getD i default))

/-- Write `internal_vec[i].field = …` on the whole arena state. -/
def updE (a : QuickArray T) (i : Nat) (f : QuickElement T → QuickElement T) :
    QuickArray T :=
  { a with internal_vec := updL a.internal_vec i f }

/-- `QuickArray::init` (src/src/lib.rs lines 347-371): chain all slots into the
free list in ascending index order.  For `max_size = 0` the `_` branch of the
Rust `match` evaluates `self.max_size - 1`, which panics on `u32` underflow in
debug builds (and the loop's first out-of-bounds `Vec` write panics in release
builds); that panic is modelled as `none`. -/
def init (a : QuickArray T) : Option (QuickArray T) :=
  if a.max_size = 1 then
    some (updE a 0 (fun e => { e with pre := INVALID_INDEX, next := INVALID_INDEX, cur := 0 }))
  else if a.max_size = 0 then
    none
  else
    let a1 := (List.range' 1 (a.max_size - 2)).foldl
      (fun s i => updE s i (fun e => { e with pre := i - 1, next := i + 1, cur := i })) a
    let a2 := updE a1 0 (fun e => { e with pre := INVALID_INDEX, next := 1, cur := 0 })
    let a3 := updE a2 (a.max_size - 1)
      (fun e => { e with pre := a.max_size - 2, next := INVALID_INDEX, cur := a.max_size - 1 })
    some a3

/-- `QuickArray::new` (src/src/lib.rs lines 33-53).  The assertion
`_max_size < INVALID_INDEX` failing, or `init` panicking, is `none`.
Note the Rust coercion `if _max_size < 1 { let _max_size = 1; }` binds a fresh
`_max_size` that is dropped at the end of the `if` block, so the field value
stays exactly the argument. -/
def new (ms : Nat) : Option (QuickArray T) :=
  if ms < INVALID_INDEX then
    init { max_size := ms
           free_head := 0
           valid_head := INVALID_INDEX
           valid_tail := INVALID_INDEX
           valid_count := 0
           internal_vec := List.replicate ms default }
  else
    none

/-- `new` with the `Option` removed, for concrete executions where `new`
returns normally. -/
def newD (ms : Nat) : QuickArray T :=
  (new ms).getD default

/-- `QuickArray::clear` (src/src/lib.rs lines 55-62). -/
def clear (a : QuickArray T) : Option (QuickArray T) :=
  init { a with free_head := 0
                valid_head := INVALID_INDEX
                valid_tail := INVALID_INDEX
                valid_count := 0 }

/-- `QuickArray::get_valid_count`. -/
def get_valid_count (a : QuickArray T) : Nat := a.valid_count

/-- `QuickArray::is_full`. -/
def is_full (a : QuickArray T) : Bool := a.valid_count == a.max_size

/-- `QuickArray::is_empty`. -/
def is_empty (a : QuickArray T) : Bool := a.valid_count == 0

/-- `QuickArray::get_max_size`. -/
def get_max_size (a : QuickArray T) : Nat := a.max_size

/-- `QuickArray::get_head_element` (src/src/lib.rs lines 84-89). -/
def get_head_element (a : QuickArray T) : Option T :=
  if a.valid_head = INVALID_INDEX then none else some (getE a a.valid_head).data

/-- `QuickArray::get_tail_element` (src/src/lib.rs lines 91-96). -/
def get_tail_element (a : QuickArray T) : Option T :=
  if a.valid_tail = INVALID_INDEX then none else some (getE a a.valid_tail).data

/-- `QuickArray::get_head_index`. -/
def get_head_index (a : QuickArray T) : Option Nat :=
  if a.valid_head = INVALID_INDEX then none else some (getE a a.valid_head).cur

/-- `QuickArray::get_tail_index`. -/
def get_tail_index (a : QuickArray T) : Option Nat :=
  if a.valid_tail = INVALID_INDEX then none else some (getE a a.valid_tail).cur

/-- `QuickArray::get_element` (src/src/lib.rs lines 112-123). -/
def get_element (a : QuickArray T) (index : Nat) : Option T :=
  if a.max_size ≤ index then none
  else
    let e := getE a index
    if !e.valid then none else some e.data

/-- `QuickArray::get_pre_index` (src/src/lib.rs lines 125-136). -/
def get_pre_index (a : QuickArray T) (index : Nat) : Option Nat :=
  if a.max_size ≤ index then none
  else
    let e := getE a index
    if !e.valid || e.pre == INVALID_INDEX then none else some e.pre

/-- `QuickArray::get_next_index` (src/src/lib.rs lines 138-149). -/
def get_next_index (a : QuickArray T) (index : Nat) : Option Nat :=
  if a.max_size ≤ index then none
  else
    let e := getE a index
    if !e.valid || e.next == INVALID_INDEX then none else some e.next

/-- `QuickArray::consume_ele` (src/src/lib.rs lines 396-412): pop the free
stack, mark the slot occupied, bump `valid_count`; returns the sentinel as the
allocation-failure signal (leaving the state untouched). -/
def consume_ele (a : QuickArray T) : QuickArray T × Nat :=
  if a.free_head = INVALID_INDEX then
    (a, INVALID_INDEX)
  else
    let free_real_index := a.free_head
    let a1 := { a with free_head := (getE a free_real_index).next }
    let a2 := if a1.free_head ≠ INVALID_INDEX then
                updE a1 a1.free_head (fun e => { e with pre := INVALID_INDEX })
              else a1
    let a3 := updE a2 free_real_index (fun e => { e with next := INVALID_INDEX, valid := true })
    ({ a3 with valid_count := a3.valid_count + 1 }, free_real_index)

/-- `QuickArray::recycle_ele` (src/src/lib.rs lines 373-394): unlink a slot
from the valid list and push it onto the free stack.  (`valid_count -= 1` is
`u32` arithmetic; in every state considered below the recycled slot is
occupied and `valid_count ≥ 1`, so no underflow occurs.) -/
def recycle_ele (a : QuickArray T) (index : Nat) : QuickArray T :=
  let target_pre := (getE a index).pre
  let target_next := (getE a index).next
  let a1 := if target_pre ≠ INVALID_INDEX then
              updE a target_pre (fun e => { e with next := target_next })
            else a
  let a2 := if target_next ≠ INVALID_INDEX then
              updE a1 target_next (fun e => { e with pre := target_pre })
            else a1
  let a3 := updE a2 index
    (fun e => { e with pre := INVALID_INDEX, next := a2.free_head, valid := false })
  let a4 := if a3.free_head ≠ INVALID_INDEX then
              updE a3 a3.free_head (fun e => { e with pre := index })
            else a3
  { a4 with free_head := index, valid_count := a4.valid_count - 1 }

/-- `QuickArray::insert_before` (src/src/lib.rs lines 151-185). -/
def insert_before (a : QuickArray T) (index : Nat) (data : T) :
    QuickArray T × Except ErrDefine Nat :=
  if a.max_size ≤ index then
    (a, Except.error ErrDefine.InvalidIndex)
  else
    let target := getE a index
    if target.valid then
      let r := consume_ele a
      let a1 := r.1
      let free_index := r.2
      if free_index = INVALID_INDEX then
        (a1, Except.error ErrDefine.ArrayIsFull)
      else
        let a2 := if a1.valid_head = target.cur then
                    { a1 with valid_head := free_index }
                  else
                    updE a1 target.pre (fun e => { e with next := free_index })
        let a3 := updE a2 free_index
          (fun e => { e with pre := target.pre, next := target.cur, data := data })
        let a4 := updE a3 target.cur (fun e => { e with pre := free_index })
        (a4, Except.ok free_index)
    else
      (a, Except.error ErrDefine.InvalidIndex)

/-- `QuickArray::insert_after` (src/src/lib.rs lines 187-221). -/
def insert_after (a : QuickArray T) (index : Nat) (data : T) :
    QuickArray T × Except ErrDefine Nat :=
  if a.max_size ≤ index then
    (a, Except.error ErrDefine.InvalidIndex)
  else
    let target := getE a index
    if target.valid then
      let r := consume_ele a
      let a1 := r.1
      let free_index := r.2
      if free_index = INVALID_INDEX then
        (a1, Except.error ErrDefine.ArrayIsFull)
      else
        let a2 := if a1.valid_tail = target.cur then
                    { a1 with valid_tail := free_index }
                  else
                    updE a1 target.next (fun e => { e with pre := free_index })
        let a3 := updE a2 free_index
          (fun e => { e with pre := target.cur, next := target.next, data := data })
        let a4 := updE a3 target.cur (fun e => { e with next := free_index })
        (a4, Except.ok free_index)
    else
      (a, Except.error ErrDefine.InvalidIndex)

/-- `QuickArray::push_back` (src/src/lib.rs lines 223-238). -/
def push_back (a : QuickArray T) (data : T) : QuickArray T × Except ErrDefine Nat :=
  if a.valid_tail = INVALID_INDEX then
    let r := consume_ele a
    let a1 := r.1
    let free_index := r.2
    if free_index = INVALID_INDEX then
      (a1, Except.error ErrDefine.ArrayIsFull)
    else
      let a2 := updE a1 free_index (fun e => { e with data := data })
      ({ a2 with valid_tail := free_index, valid_head := free_index }, Except.ok free_index)
  else
    insert_after a a.valid_tail data

/-- `QuickArray::push_front` (src/src/lib.rs lines 240-256). -/
def push_front (a : QuickArray T) (data : T) : QuickArray T × Except ErrDefine Nat :=
  if a.valid_head = INVALID_INDEX then
    push_back a data
  else
    let r := consume_ele a
    let a1 := r.1
    let free_index := r.2
    if free_index = INVALID_INDEX then
      (a1, Except.error ErrDefine.ArrayIsFull)
    else
      let a2 := updE a1 free_index (fun e => { e with data := data, next := a1.valid_head })
      let a3 := updE a2 a1.valid_head (fun e => { e with pre := free_index })
      ({ a3 with valid_head := free_index }, Except.ok free_index)

/-- `QuickArray::remove_at` (src/src/lib.rs lines 258-286). -/
def remove_at (a : QuickArray T) (index : Nat) : QuickArray T × Except ErrDefine Unit :=
  if a.max_size ≤ index then
    (a, Except.error ErrDefine.InvalidIndex)
  else
    let target := getE a index
    if target.valid then
      let a1 := if a.valid_head = target.cur then { a with valid_head := target.next } else a
      let a2 := if a1.valid_tail = target.cur then { a1 with valid_tail := target.pre } else a1
      (recycle_ele a2 target.cur, Except.ok ())
    else
      (a, Except.error ErrDefine.InvalidIndex)

/-- `QuickArray::pop_last` (src/src/lib.rs lines 288-294). -/
def pop_last (a : QuickArray T) : QuickArray T × Except ErrDefine Unit :=
  if a.valid_tail = INVALID_INDEX then
    (a, Except.error ErrDefine.ArrayIsEmpty)
  else
    remove_at a a.valid_tail

/-- `QuickArray::update_at` (src/src/lib.rs lines 296-310). -/
def update_at (a : QuickArray T) (index : Nat) (data : T) :
    QuickArray T × Except ErrDefine Unit :=
  if a.max_size ≤ index then
    (a, Except.error ErrDefine.InvalidIndex)
  else
    let target := getE a index
    if target.valid then
      (updE a index (fun e => { e with data := data }), Except.ok ())
    else
      (a, Except.error ErrDefine.InvalidIndex)

/-- The replacement slot vector built by `expand_to`'s success path (src/src/lib.rs
lines 316-337): default
slots, the old slots copied into positions below `max_size`, then the new
slots chained in ascending order with the last one pointing at the old
`free_head`. -/
def expandVec (a : QuickArray T) (new_size : Nat) : List (QuickElement T) :=
  let ev0 : List (QuickElement T) := List.replicate new_size default
  let ev1 := (List.range a.max_size).foldl (fun v i => updL v i (fun _ => getE a i)) ev0
  let ev2 := (List.range' (a.max_size + 1) (new_size - 1 - (a.max_size + 1))).foldl
    (fun v i => updL v i (fun e => { e with pre := i - 1, next := i + 1, cur := i })) ev1
  let ev3 := updL ev2 a.max_size
    (fun e => { e with pre := INVALID_INDEX, next := a.max_size + 1, cur := a.max_size })
  updL ev3 (new_size - 1)
    (fun e => { e with pre := new_size - 2, next := a.free_head, cur := new_size - 1 })

/-- `QuickArray::expand_to` (src/src/lib.rs lines 312-345).  The Rust range
`(max_size + 1)..(new_size - 1)` has `new_size - 1 - (max_size + 1)` elements
(empty when the bound underflows, as for the empty Rust range). -/
def expand_to (a : QuickArray T) (new_size : Nat) : QuickArray T × Except ErrDefine Unit :=
  if new_size ≤ a.max_size ∨ INVALID_INDEX ≤ new_size then
    (a, Except.error ErrDefine.ArraySizeError)
  else
    ({ a with internal_vec := expandVec a new_size, free_head := a.max_size, max_size := new_size },
     Except.ok ())

/-- One call to `QuickArrayIterator::next` (src/src/lib.rs lines 430-443):
the yielded `(index, value)` pair, if any, and the cursor the iterator leaves
behind. -/
def iterNext (a : QuickArray T) (index : Nat) : Option ((Nat × T) × Nat) :=
  let cur_ele := get_element a index
  let next_index := get_next_index a index
  let new_cursor := match next_index with
    | some i => i
    | none => INVALID_INDEX
  match cur_ele with
  | none => none
  | some d => some ((index, d), new_cursor)

/-- Collect the iterator's yields, with fuel bounding the number of steps (the
Rust iterator is a plain loop; in every well-formed state it stops after
`valid_count ≤ max_size` yields, so any fuel ≥ `valid_count` gives the full
sequence of yields). -/
def enumerateAux (a : QuickArray T) : Nat → Nat → List (Nat × T)
  | _, 0 => []
  | index, fuel + 1 =>
    match iterNext a index with
    | none => []
    | some (item, cursor) => item :: enumerateAux a cursor fuel

/-- `QuickArray::enumerate` followed by collecting the iterator
(src/src/lib.rs lines 414-419 and 427-444): the walk starts at `valid_head`. -/
def enumerate (a : QuickArray T) : List (Nat × T) :=
  enumerateAux a a.valid_head (a.max_size + 1)

/-- Number of slots whose occupancy flag is set (the "number of occupied
slots" of the spec's invariant 2). -/
def occupiedCount (a : QuickArray T) : Nat :=
  a.internal_vec.countP (fun e => e.valid)

/-! ### Basic lemmas about slot reads and writes -/

@[simp] theorem updE_max_size (a : QuickArray T) (i : Nat) (f : QuickElement T → QuickElement T) :
    (updE a i f).max_size = a.max_size := rfl

@[simp] theorem updE_free_head (a : QuickArray T) (i : Nat) (f : QuickElement T → QuickElement T) :
    (updE a i f).free_head = a.free_head := rfl

@[simp] theorem updE_valid_head (a : QuickArray T) (i : Nat) (f : QuickElement T → QuickElement T) :
    (updE a i f).valid_head = a.valid_head := rfl

@[simp] theorem updE_valid_tail (a : QuickArray T) (i : Nat) (f : QuickElement T → QuickElement T) :
    (updE a i f).valid_tail = a.valid_tail := rfl

@[simp] theorem updE_valid_count (a : QuickArray T) (i : Nat) (f : QuickElement T → QuickElement T) :
    (updE a i f).valid_count = a.valid_count := rfl

@[simp] theorem updE_length (a : QuickArray T) (i : Nat) (f : QuickElement T → QuickElement T) :
    (updE a i f).internal_vec.length = a.internal_vec.length := by
  simp [updE, updL]

theorem getE_updE_self (a : QuickArray T) (i : Nat) (f : QuickElement T → QuickElement T)
    (h : i < a.internal_vec.length) :
    getE (updE a i f) i = f (getE a i) := by
  simp [getE, updE, updL, List.getD_eq_getElem?_getD, List.getElem?_set_self h]

theorem getE_updE_ne (a : QuickArray T) (i j : Nat) (f : QuickElement T → QuickElement T)
    (h : j ≠ i) :
    getE (updE a i f) j = getE a j := by
  simp [getE, updE, updL, List.getD_eq_getElem?_getD, List.getElem?_set_ne (Ne.symm h)]

theorem getE_mk_fields (ms fh vh vt vc : Nat) (v : List (QuickElement T)) (i : Nat) :
    getE (QuickArray.mk ms fh vh vt vc v) i = v.getD i default := rfl

/-! ### Chains: a cursor threading a list of slot indices via `next` links

`chain a h l e = true` states that starting from cursor value `h`, the `next`
links of `a` visit exactly the indices in `l` in order and leave the final
cursor at `e`.  The valid list of a well-formed arena is
`chain a a.valid_head vl INVALID_INDEX`, the free list
`chain a a.free_head fl INVALID_INDEX`. -/

def chain (a : QuickArray T) : Nat → List Nat → Nat → Bool
  | h, [], e => h == e
  | h, i :: rest, e => h == i && chain a (getE a i).next rest e

/-- `preChain a p l = true` states that walking `l`, each slot's `pre` link
points at the previous entry (`p` before the first). -/
def preChain (a : QuickArray T) : Nat → List Nat → Bool
  | _, [] => true
  | p, i :: rest => ((getE a i).pre == p) && preChain a i rest

/-- The last entry of an index list, `INVALID_INDEX` when empty (the value
`valid_tail` holds in a well-formed state). -/
def endIdx : List Nat → Nat
  | [] => INVALID_INDEX
  | [i] => i
  | _ :: i :: rest => endIdx (i :: rest)

@[simp] theorem chain_nil (a : QuickArray T) (h e : Nat) :
    chain a h [] e = (h == e) := rfl

@[simp] theorem chain_cons (a : QuickArray T) (h i e : Nat) (l : List Nat) :
    chain a h (i :: l) e = (h == i && chain a (getE a i).next l e) := rfl

theorem chain_nil_iff (a : QuickArray T) (h e : Nat) :
    chain a h [] e = true ↔ h = e := by simp

theorem chain_cons_iff (a : QuickArray T) (h i e : Nat) (l : List Nat) :
    chain a h (i :: l) e = true ↔ h = i ∧ chain a (getE a i).next l e = true := by simp

theorem chain_append_iff (a : QuickArray T) (h e : Nat) (u w : List Nat) :
    chain a h (u ++ w) e = true ↔ ∃ m, chain a h u m = true ∧ chain a m w e = true := by
  induction u generalizing h with
  | nil =>
    simp only [List.nil_append, chain_nil]
    constructor
    · intro hw
      exact ⟨h, by simp, hw⟩
    · rintro ⟨m, hm, hw⟩
      simp only [beq_iff_eq] at hm
      exact hm ▸ hw
  | cons i u ih =>
    simp only [List.cons_append, chain_cons, Bool.and_eq_true, beq_iff_eq]
    constructor
    · rintro ⟨rfl, hc⟩
      obtain ⟨m, h1, h2⟩ := (ih _).mp hc
      exact ⟨m, ⟨rfl, h1⟩, h2⟩
    · rintro ⟨m, ⟨rfl, h1⟩, h2⟩
      exact ⟨rfl, (ih _).mpr ⟨m, h1, h2⟩⟩

theorem chain_congr (a' a : QuickArray T) (h e : Nat) (l : List Nat)
    (hnext : ∀ i ∈ l, (getE a' i).next = (getE a i).next) :
    chain a' h l e = chain a h l e := by
  induction l generalizing h with
  | nil => rfl
  | cons i rest ih =>
    simp only [chain_cons]
    rw [hnext i (by simp), ih _ (fun j hj => hnext j (by simp [hj]))]

theorem preChain_congr (a' a : QuickArray T) (p : Nat) (l : List Nat)
    (hpre : ∀ i ∈ l, (getE a' i).pre = (getE a i).pre) :
    preChain a' p l = preChain a p l := by
  induction l generalizing p with
  | nil => rfl
  | cons i rest ih =>
    simp only [preChain]
    rw [hpre i (by simp), ih _ (fun j hj => hpre j (by simp [hj]))]

theorem preChain_append (a : QuickArray T) (p : Nat) (u w : List Nat) :
    preChain a p (u ++ w) = (preChain a p u && preChain a (u.getLastD p) w) := by
  induction u generalizing p with
  | nil => simp [preChain]
  | cons i u ih =>
    simp only [List.cons_append, preChain, List.getLastD_cons, Bool.and_assoc]
    rw [show u.append w = u ++ w from rfl, ih i]

@[simp] theorem endIdx_nil : endIdx [] = INVALID_INDEX := rfl

@[simp] theorem endIdx_singleton (i : Nat) : endIdx [i] = i := rfl

theorem endIdx_cons_cons (i j : Nat) (l : List Nat) :
    endIdx (i :: j :: l) = endIdx (j :: l) := rfl

theorem endIdx_cons_of_ne_nil (i : Nat) (l : List Nat) (h : l ≠ []) :
    endIdx (i :: l) = endIdx l := by
  cases l with
  | nil => exact absurd rfl h
  | cons j rest => rfl

theorem endIdx_append_of_ne_nil (u l : List Nat) (h : l ≠ []) :
    endIdx (u ++ l) = endIdx l := by
  induction u with
  | nil => rfl
  | cons i u ih =>
    rw [List.cons_append, endIdx_cons_of_ne_nil _ _ (by simp [h]), ih]

theorem endIdx_mem (l : List Nat) (h : l ≠ []) : endIdx l ∈ l := by
  induction l with
  | nil => exact absurd rfl h
  | cons i rest ih =>
    cases rest with
    | nil => simp
    | cons j r => simp only [endIdx_cons_cons]; exact List.mem_cons_of_mem _ (ih (by simp))

/-! ### The well-formedness invariant

`Inv a vl fl`: the arena `a` is a well-formed two-list arena whose valid list
threads exactly the indices `vl` (in order) and whose free list threads
exactly `fl`.  It records only what the code maintains on *every* path,
deliberately saying nothing about `pre` links: `expand_to(capacity + 1)`
leaves the new free head with a stale `pre` (the two final writes of
`expand_to` hit the same slot), so `pre`-correctness is tracked separately by
`PreOk` and is not preserved by `expand_to`. -/

@[mk_iff]
structure Inv (a : QuickArray T) (vl fl : List Nat) : Prop where
  len : a.internal_vec.length = a.max_size
  ms_lt : a.max_size < INVALID_INDEX
  count : a.valid_count = vl.length
  vchain : chain a a.valid_head vl INVALID_INDEX = true
  vtail : a.valid_tail = endIdx vl
  fchain : chain a a.free_head fl INVALID_INDEX = true
  curEq : ∀ i, i < a.max_size → (getE a i).cur = i
  validIff : ∀ i, i < a.max_size → ((getE a i).valid = true ↔ i ∈ vl)
  perm : (vl ++ fl).Perm (List.range a.max_size)

instance (a : QuickArray T) (vl fl : List Nat) : Decidable (Inv a vl fl) :=
  decidable_of_iff _ (inv_iff a vl fl).symm

/-- `pre`-link correctness: the valid list's `pre` links mirror its `next`
links, and the free head's `pre` is the sentinel (the caller-side assumption
`consume_ele` hands to `push_back`/`push_front`, which never write the new
slot's `pre`). -/
@[mk_iff]
structure PreOk (a : QuickArray T) (vl : List Nat) : Prop where
  vpre : preChain a INVALID_INDEX vl = true
  fhpre : a.free_head ≠ INVALID_INDEX → (getE a a.free_head).pre = INVALID_INDEX

instance (a : QuickArray T) (vl : List Nat) : Decidable (PreOk a vl) :=
  decidable_of_iff _ (preOk_iff a vl).symm

theorem Inv.mem_append_lt {a : QuickArray T} {vl fl : List Nat} (h : Inv a vl fl)
    {i : Nat} (hi : i ∈ vl ++ fl) : i < a.max_size :=
  List.mem_range.mp (h.perm.mem_iff.mp hi)

theorem Inv.mem_vl_lt {a : QuickArray T} {vl fl : List Nat} (h : Inv a vl fl)
    {i : Nat} (hi : i ∈ vl) : i < a.max_size :=
  h.mem_append_lt (List.mem_append_left _ hi)

theorem Inv.mem_fl_lt {a : QuickArray T} {vl fl : List Nat} (h : Inv a vl fl)
    {i : Nat} (hi : i ∈ fl) : i < a.max_size :=
  h.mem_append_lt (List.mem_append_right _ hi)

theorem Inv.mem_vl_ne_sentinel {a : QuickArray T} {vl fl : List Nat} (h : Inv a vl fl)
    {i : Nat} (hi : i ∈ vl) : i ≠ INVALID_INDEX :=
  Nat.ne_of_lt (lt_trans (h.mem_vl_lt hi) h.ms_lt)

theorem Inv.mem_fl_ne_sentinel {a : QuickArray T} {vl fl : List Nat} (h : Inv a vl fl)
    {i : Nat} (hi : i ∈ fl) : i ≠ INVALID_INDEX :=
  Nat.ne_of_lt (lt_trans (h.mem_fl_lt hi) h.ms_lt)

theorem Inv.nodup_append {a : QuickArray T} {vl fl : List Nat} (h : Inv a vl fl) :
    (vl ++ fl).Nodup :=
  h.perm.nodup_iff.mpr (List.nodup_range _)

theorem Inv.vl_nodup {a : QuickArray T} {vl fl : List Nat} (h : Inv a vl fl) :
    vl.Nodup :=
  (List.nodup_append.mp h.nodup_append).1

theorem Inv.fl_nodup {a : QuickArray T} {vl fl : List Nat} (h : Inv a vl fl) :
    fl.Nodup :=
  (List.nodup_append.mp h.nodup_append).2.1

theorem Inv.disjoint {a : QuickArray T} {vl fl : List Nat} (h : Inv a vl fl)
    {i : Nat} (hv : i ∈ vl) (hf : i ∈ fl) : False :=
  (List.disjoint_of_nodup_append h.nodup_append) hv hf

theorem Inv.length_add {a : QuickArray T} {vl fl : List Nat} (h : Inv a vl fl) :
    vl.length + fl.length = a.max_size := by
  simpa using h.perm.length_eq

theorem Inv.count_le {a : QuickArray T} {vl fl : List Nat} (h : Inv a vl fl) :
    a.valid_count ≤ a.max_size := by
  rw [h.count, ← h.length_add]
  exact Nat.le_add_right _ _

theorem Inv.valid_of_mem_vl {a : QuickArray T} {vl fl : List Nat} (h : Inv a vl fl)
    {i : Nat} (hi : i ∈ vl) : (getE a i).valid = true :=
  (h.validIff i (h.mem_vl_lt hi)).mpr hi

theorem Inv.not_valid_of_mem_fl {a : QuickArray T} {vl fl : List Nat} (h : Inv a vl fl)
    {i : Nat} (hi : i ∈ fl) : (getE a i).valid = false := by
  by_contra hv
  have hv' : (getE a i).valid = true := by
    cases hval : (getE a i).valid
    · exact absurd hval hv
    · rfl
  exact h.disjoint ((h.validIff i (h.mem_fl_lt hi)).mp hv') hi

theorem Inv.fl_nil_of_full {a : QuickArray T} {vl fl : List Nat} (h : Inv a vl fl)
    (hc : a.valid_count = a.max_size) : fl = [] := by
  have h1 := h.length_add
  rw [← hc, h.count] at h1
  have : fl.length = 0 := by omega
  exact List.length_eq_zero.mp this

theorem Inv.mem_vl_of_full {a : QuickArray T} {vl fl : List Nat} (h : Inv a vl fl)
    (hc : a.valid_count = a.max_size) {i : Nat} (hi : i < a.max_size) : i ∈ vl := by
  have hfl := h.fl_nil_of_full hc
  subst hfl
  have := h.perm.mem_iff.mpr (List.mem_range.mpr hi)
  simpa using this

theorem Inv.free_head_of_fl_nil {a : QuickArray T} {vl fl : List Nat} (h : Inv a vl fl)
    (hfl : fl = []) : a.free_head = INVALID_INDEX := by
  have := h.fchain
  rw [hfl, chain_nil, beq_iff_eq] at this
  exact this

theorem Inv.free_head_of_fl_cons {a : QuickArray T} {vl fl : List Nat} (h : Inv a vl fl)
    {i : Nat} {fl' : List Nat} (hfl : fl = i :: fl') : a.free_head = i := by
  have := h.fchain
  rw [hfl] at this
  exact ((chain_cons_iff _ _ _ _ _).mp this).1

theorem Inv.valid_head_of_vl_nil {a : QuickArray T} {vl fl : List Nat} (h : Inv a vl fl)
    (hvl : vl = []) : a.valid_head = INVALID_INDEX := by
  have := h.vchain
  rw [hvl, chain_nil, beq_iff_eq] at this
  exact this

theorem Inv.valid_head_of_vl_cons {a : QuickArray T} {vl fl : List Nat} (h : Inv a vl fl)
    {i : Nat} {vl' : List Nat} (hvl : vl = i :: vl') : a.valid_head = i := by
  have := h.vchain
  rw [hvl] at this
  exact ((chain_cons_iff _ _ _ _ _).mp this).1

/-! ### Reads through record updates that leave `internal_vec` alone -/

@[simp] theorem getE_set_fh (a : QuickArray T) (x j : Nat) :
    getE { a with free_head := x } j = getE a j := rfl

@[simp] theorem getE_set_vc (a : QuickArray T) (x j : Nat) :
    getE { a with valid_count := x } j = getE a j := rfl

@[simp] theorem getE_set_vh (a : QuickArray T) (x j : Nat) :
    getE { a with valid_head := x } j = getE a j := rfl

@[simp] theorem getE_set_vt (a : QuickArray T) (x j : Nat) :
    getE { a with valid_tail := x } j = getE a j := rfl

@[simp] theorem getE_set_vt_vh (a : QuickArray T) (x y j : Nat) :
    getE { a with valid_tail := x, valid_head := y } j = getE a j := rfl

theorem chain_append_cons_iff (a : QuickArray T) (h e t : Nat) (u w : List Nat) :
    chain a h (u ++ t :: w) e = true ↔
      chain a h u t = true ∧ chain a (getE a t).next w e = true := by
  rw [chain_append_iff]
  constructor
  · rintro ⟨m, h1, h2⟩
    rw [chain_cons_iff] at h2
    exact ⟨h2.1 ▸ h1, h2.2⟩
  · rintro ⟨h1, h2⟩
    exact ⟨t, h1, (chain_cons_iff _ _ _ _ _).mpr ⟨rfl, h2⟩⟩

/-! ### Specification of `consume_ele` on a well-formed state with a free slot -/

theorem consume_spec (a : QuickArray T) (vl fl' : List Nat) (i : Nat)
    (hInv : Inv a vl (i :: fl')) :
    ∃ a1, consume_ele a = (a1, i) ∧
      a1.max_size = a.max_size ∧
      a1.valid_head = a.valid_head ∧
      a1.valid_tail = a.valid_tail ∧
      a1.valid_count = a.valid_count + 1 ∧
      a1.internal_vec.length = a.internal_vec.length ∧
      chain a1 a1.free_head fl' INVALID_INDEX = true ∧
      getE a1 i = { getE a i with next := INVALID_INDEX, valid := true } ∧
      (∀ j, j ≠ i → (getE a1 j).next = (getE a j).next ∧ (getE a1 j).cur = (getE a j).cur ∧
        (getE a1 j).valid = (getE a j).valid ∧ (getE a1 j).data = (getE a j).data) ∧
      (∀ j, j ∈ vl → getE a1 j = getE a j) ∧
      (a1.free_head ≠ INVALID_INDEX → (getE a1 a1.free_head).pre = INVALID_INDEX) := by
  have hfh : a.free_head = i := hInv.free_head_of_fl_cons rfl
  have hmemi : i ∈ i :: fl' := List.mem_cons_self _ _
  have hi_lt : i < a.max_size := hInv.mem_fl_lt hmemi
  have hi_len : i < a.internal_vec.length := by rw [hInv.len]; exact hi_lt
  have hi_ne : i ≠ INVALID_INDEX := hInv.mem_fl_ne_sentinel hmemi
  have hrest : chain a (getE a i).next fl' INVALID_INDEX = true := by
    have h0 := hInv.fchain
    rw [hfh] at h0
    exact ((chain_cons_iff _ _ _ _ _).mp h0).2
  have hnodup : (i :: fl').Nodup := hInv.fl_nodup
  cases fl' with
  | nil =>
    have hnext : (getE a i).next = INVALID_INDEX := by
      rw [chain_nil, beq_iff_eq] at hrest
      exact hrest
    have hstep : consume_ele a =
        ({ updE { a with free_head := INVALID_INDEX } i
             (fun e => { e with next := INVALID_INDEX, valid := true }) with
           valid_count := a.valid_count + 1 }, i) := by
      rw [consume_ele, if_neg (by rw [hfh]; exact hi_ne)]
      simp only [hfh, hnext, ne_eq, not_true_eq_false, if_false, ite_false]
      rfl
    refine ⟨_, hstep, ?_⟩
    refine ⟨rfl, rfl, rfl, rfl, by simp, ?_, ?_, ?_, ?_, ?_⟩
    · simp [chain_nil]
    · rw [getE_set_vc, getE_updE_self _ _ _ (by simpa using hi_len), getE_set_fh]
    · intro j hj
      rw [getE_set_vc, getE_updE_ne _ _ _ _ hj, getE_set_fh]
      exact ⟨rfl, rfl, rfl, rfl⟩
    · intro j hjv
      have hji : j ≠ i := fun hh => hInv.disjoint hjv (hh ▸ hmemi)
      rw [getE_set_vc, getE_updE_ne _ _ _ _ hji, getE_set_fh]
    · intro hcon
      exact absurd rfl hcon
  | cons k rest =>
    have hmemk : k ∈ i :: k :: rest := by simp
    have hk_lt : k < a.max_size := hInv.mem_fl_lt hmemk
    have hk_len : k < a.internal_vec.length := by rw [hInv.len]; exact hk_lt
    have hk_ne : k ≠ INVALID_INDEX := hInv.mem_fl_ne_sentinel hmemk
    have hik : i ≠ k := by
      intro hh
      rw [List.nodup_cons] at hnodup
      exact hnodup.1 (hh ▸ (List.mem_cons_self k rest))
    have hnext : (getE a i).next = k := ((chain_cons_iff _ _ _ _ _).mp hrest).1
    have hrest2 : chain a (getE a k).next rest INVALID_INDEX = true :=
      ((chain_cons_iff _ _ _ _ _).mp hrest).2
    have hstep : consume_ele a =
        ({ updE (updE { a with free_head := k } k
             (fun e => { e with pre := INVALID_INDEX })) i
             (fun e => { e with next := INVALID_INDEX, valid := true }) with
           valid_count := a.valid_count + 1 }, i) := by
      rw [consume_ele, if_neg (by rw [hfh]; exact hi_ne)]
      simp only [hfh, hnext, ne_eq, hk_ne, not_false_eq_true, if_true, ite_true]
      rfl
    refine ⟨_, hstep, ?_⟩
    have hgetk :
        getE (updE { a with free_head := k } k (fun e => { e with pre := INVALID_INDEX })) k
          = { getE a k with pre := INVALID_INDEX } := by
      rw [getE_updE_self _ _ _ (by simpa using hk_len), getE_set_fh]
    have hcongr : ∀ x,
        (getE ({ updE (updE { a with free_head := k } k
            (fun e => { e with pre := INVALID_INDEX })) i
            (fun e => { e with next := INVALID_INDEX, valid := true }) with
          valid_count := a.valid_count + 1 } : QuickArray T) x).next
        = if x = i then INVALID_INDEX else (getE a x).next := by
      intro x
      by_cases hxi : x = i
      · subst hxi
        rw [getE_set_vc, getE_updE_self _ _ _ (by simpa using hi_len), if_pos rfl]
      · rw [getE_set_vc, getE_updE_ne _ _ _ _ hxi, if_neg hxi]
        by_cases hxk : x = k
        · subst hxk
          rw [hgetk]
        · rw [getE_updE_ne _ _ _ _ hxk, getE_set_fh]
    refine ⟨rfl, rfl, rfl, rfl, by simp, ?_, ?_, ?_, ?_, ?_⟩
    · show chain _ k (k :: rest) INVALID_INDEX = true
      rw [chain_cons_iff]
      refine ⟨rfl, ?_⟩
      have hknext : (getE ({ updE (updE { a with free_head := k } k
            (fun e => { e with pre := INVALID_INDEX })) i
            (fun e => { e with next := INVALID_INDEX, valid := true }) with
          valid_count := a.valid_count + 1 } : QuickArray T) k).next = (getE a k).next := by
        rw [hcongr k, if_neg (Ne.symm hik)]
      rw [hknext]
      rw [chain_congr _ a _ _ rest ?_]
      · exact hrest2
      · intro x hx
        have hxi : x ≠ i := by
          intro hh
          rw [List.nodup_cons] at hnodup
          exact hnodup.1 (hh ▸ List.mem_cons_of_mem _ hx)
        rw [hcongr x, if_neg hxi]
    · rw [getE_set_vc, getE_updE_self _ _ _ (by simpa using hi_len),
        getE_updE_ne _ _ _ _ hik, getE_set_fh]
    · intro j hj
      rw [getE_set_vc, getE_updE_ne _ _ _ _ hj]
      by_cases hjk : j = k
      · subst hjk
        rw [hgetk]
        exact ⟨rfl, rfl, rfl, rfl⟩
      · rw [getE_updE_ne _ _ _ _ hjk, getE_set_fh]
        exact ⟨rfl, rfl, rfl, rfl⟩
    · intro j hjv
      have hji : j ≠ i := fun hh => hInv.disjoint hjv (hh ▸ hmemi)
      have hjk : j ≠ k := fun hh => hInv.disjoint hjv (hh ▸ hmemk)
      rw [getE_set_vc, getE_updE_ne _ _ _ _ hji, getE_updE_ne _ _ _ _ hjk, getE_set_fh]
    · intro _
      show (getE _ k).pre = INVALID_INDEX
      rw [getE_set_vc, getE_updE_ne _ _ _ _ (Ne.symm hik), hgetk]

/-! ### Execution shapes of the mutating operations on their success paths -/

theorem insert_after_run (a : QuickArray T) (t : Nat) (v : T) (a1 : QuickArray T) (i : Nat)
    (hlt : t < a.max_size) (hv : (getE a t).valid = true)
    (hc : consume_ele a = (a1, i)) (hne : i ≠ INVALID_INDEX) :
    insert_after a t v =
      (updE (updE (if a1.valid_tail = (getE a t).cur then { a1 with valid_tail := i }
                   else updE a1 (getE a t).next (fun e => { e with pre := i })) i
          (fun e => { e with pre := (getE a t).cur, next := (getE a t).next, data := v }))
        (getE a t).cur (fun e => { e with next := i }), Except.ok i) := by
  rw [insert_after, if_neg (by omega), hc]
  simp only [hv, if_true, ite_true, if_neg hne]

theorem insert_before_run (a : QuickArray T) (t : Nat) (v : T) (a1 : QuickArray T) (i : Nat)
    (hlt : t < a.max_size) (hv : (getE a t).valid = true)
    (hc : consume_ele a = (a1, i)) (hne : i ≠ INVALID_INDEX) :
    insert_before a t v =
      (updE (updE (if a1.valid_head = (getE a t).cur then { a1 with valid_head := i }
                   else updE a1 (getE a t).pre (fun e => { e with next := i })) i
          (fun e => { e with pre := (getE a t).pre, next := (getE a t).cur, data := v }))
        (getE a t).cur (fun e => { e with pre := i }), Except.ok i) := by
  rw [insert_before, if_neg (by omega), hc]
  simp only [hv, if_true, ite_true, if_neg hne]

theorem push_back_run_empty (a : QuickArray T) (v : T) (a1 : QuickArray T) (i : Nat)
    (ht : a.valid_tail = INVALID_INDEX)
    (hc : consume_ele a = (a1, i)) (hne : i ≠ INVALID_INDEX) :
    push_back a v =
      ({ updE a1 i (fun e => { e with data := v }) with
         valid_tail := i, valid_head := i }, Except.ok i) := by
  rw [push_back, if_pos ht, hc]
  simp only [if_neg hne]

theorem push_front_run (a : QuickArray T) (v : T) (a1 : QuickArray T) (i : Nat)
    (hh : a.valid_head ≠ INVALID_INDEX)
    (hc : consume_ele a = (a1, i)) (hne : i ≠ INVALID_INDEX) :
    push_front a v =
      ({ updE (updE a1 i (fun e => { e with data := v, next := a1.valid_head }))
           a1.valid_head (fun e => { e with pre := i }) with
         valid_head := i }, Except.ok i) := by
  rw [push_front, if_neg hh, hc]
  simp only [if_neg hne]

/-- Pointwise description of two nested slot writes at distinct indices. -/
theorem getE_upd2 (B : QuickArray T) (i t : Nat) (f3 f4 : QuickElement T → QuickElement T)
    (hti : t ≠ i) (hi : i < B.internal_vec.length) (ht : t < B.internal_vec.length) (x : Nat) :
    getE (updE (updE B i f3) t f4) x =
      if x = t then f4 (getE B t)
      else if x = i then f3 (getE B i)
      else getE B x := by
  by_cases hxt : x = t
  · subst hxt
    rw [if_pos rfl, getE_updE_self _ _ _ (by simpa using ht), getE_updE_ne _ _ _ _ hti]
  · rw [if_neg hxt, getE_updE_ne _ _ _ _ hxt]
    by_cases hxi : x = i
    · subst hxi
      rw [if_pos rfl, getE_updE_self _ _ _ hi]
    · rw [if_neg hxi, getE_updE_ne _ _ _ _ hxi]

/-- Pointwise description of three nested slot writes at distinct indices. -/
theorem getE_upd3 (B : QuickArray T) (p i t : Nat)
    (g f3 f4 : QuickElement T → QuickElement T)
    (hti : t ≠ i) (htp : t ≠ p) (hip : i ≠ p)
    (hp : p < B.internal_vec.length) (hi : i < B.internal_vec.length)
    (ht : t < B.internal_vec.length) (x : Nat) :
    getE (updE (updE (updE B p g) i f3) t f4) x =
      if x = t then f4 (getE B t)
      else if x = i then f3 (getE B i)
      else if x = p then g (getE B p)
      else getE B x := by
  have h2 := getE_upd2 (updE B p g) i t f3 f4 hti (by simpa using hi) (by simpa using ht) x
  rw [h2]
  by_cases hxt : x = t
  · subst hxt
    rw [if_pos rfl, if_pos rfl, getE_updE_ne _ _ _ _ htp]
  · rw [if_neg hxt, if_neg hxt]
    by_cases hxi : x = i
    · subst hxi
      rw [if_pos rfl, if_pos rfl, getE_updE_ne _ _ _ _ hip]
    · rw [if_neg hxi, if_neg hxi]
      by_cases hxp : x = p
      · subst hxp
        rw [if_pos rfl, getE_updE_self _ _ _ hp]
      · rw [if_neg hxp, getE_updE_ne _ _ _ _ hxp]

theorem perm_insert_mid (u w fl' : List Nat) (t i : Nat) :
    ((u ++ t :: i :: w) ++ fl').Perm ((u ++ t :: w) ++ (i :: fl')) := by
  rw [List.perm_iff_count]
  intro x
  simp only [List.count_append, List.count_cons]
  omega

/-- Success specification of `insert_after` at an occupied target `t` with a
nonempty free list.  The valid list `u ++ t :: w` becomes `u ++ t :: i :: w`
where `i` is the popped free head. -/
theorem insert_after_ok (a : QuickArray T) (u w fl' : List Nat) (t i : Nat) (v : T)
    (hInv : Inv a (u ++ t :: w) (i :: fl')) :
    ∃ a', insert_after a t v = (a', Except.ok i) ∧
      Inv a' (u ++ t :: i :: w) fl' ∧
      a'.max_size = a.max_size ∧
      a'.valid_head = a.valid_head ∧
      a'.valid_count = a.valid_count + 1 ∧
      (getE a' i).data = v ∧
      (∀ j, j ≠ i → j < a.max_size → (getE a' j).data = (getE a j).data) ∧
      (PreOk a (u ++ t :: w) → PreOk a' (u ++ t :: i :: w)) := by
  have htmem : t ∈ u ++ t :: w := by simp
  have himem : i ∈ i :: fl' := List.mem_cons_self _ _
  have ht_lt : t < a.max_size := hInv.mem_vl_lt htmem
  have hi_lt : i < a.max_size := hInv.mem_fl_lt himem
  have hi_ne : i ≠ INVALID_INDEX := hInv.mem_fl_ne_sentinel himem
  have htv : (getE a t).valid = true := hInv.valid_of_mem_vl htmem
  have htcur : (getE a t).cur = t := hInv.curEq t ht_lt
  have hti : t ≠ i := fun hh => hInv.disjoint htmem (hh ▸ himem)
  have hnd : (u ++ t :: w).Nodup := hInv.vl_nodup
  have hndf : (i :: fl').Nodup := hInv.fl_nodup
  obtain ⟨hu_nd, htw_nd, hu_disj⟩ := List.nodup_append.mp hnd
  have ht_nw : t ∉ w := (List.nodup_cons.mp htw_nd).1
  have hvmem_ne_i : ∀ x ∈ u ++ t :: w, x ≠ i :=
    fun x hx hh => hInv.disjoint hx (hh ▸ himem)
  have hfl_ne_v : ∀ x ∈ fl', ∀ y ∈ u ++ t :: w, x ≠ y :=
    fun x hx y hy hh => hInv.disjoint hy (hh ▸ List.mem_cons_of_mem _ hx)
  obtain ⟨a1, hc, hms, hvh, hvt, hvc, hlen, hfc1, hgi, hoth, hvlsame, hfhpre1⟩ :=
    consume_spec a (u ++ t :: w) fl' i hInv
  have hlen1 : a1.internal_vec.length = a.max_size := by rw [hlen, hInv.len]
  have hi_len1 : i < a1.internal_vec.length := by rw [hlen1]; exact hi_lt
  have ht_len1 : t < a1.internal_vec.length := by rw [hlen1]; exact ht_lt
  have hrun := insert_after_run a t v a1 i ht_lt htv hc hi_ne
  have hsplit := (chain_append_cons_iff a a.valid_head INVALID_INDEX t u w).mp hInv.vchain
  have hnextT : (getE a t).next = INVALID_INDEX ∨ (getE a t).next ∈ w := by
    cases w with
    | nil =>
      left
      have h2 := hsplit.2
      rwa [chain_nil, beq_iff_eq] at h2
    | cons w0 ws =>
      right
      have h2 := hsplit.2
      rw [((chain_cons_iff _ _ _ _ _).mp h2).1]
      exact List.mem_cons_self _ _
  have hnextT_ne_t : (getE a t).next ≠ t := by
    rcases hnextT with hS | hw
    · rw [hS]
      exact fun hh => absurd hh.symm (Nat.ne_of_lt (lt_trans ht_lt hInv.ms_lt))
    · exact fun hh => ht_nw (hh ▸ hw)
  have hnextT_ne_i : (getE a t).next ≠ i := by
    rcases hnextT with hS | hw
    · rw [hS]
      exact fun hh => hi_ne hh.symm
    · exact hvmem_ne_i _ (List.mem_append_right _ (List.mem_cons_of_mem _ hw))
  obtain ⟨A, hA, hAms, hAvh, hAvt, hAvc, hAlen, hAfh, hchar⟩ :
      ∃ A, insert_after a t v = (A, Except.ok i) ∧
        A.max_size = a.max_size ∧
        A.valid_head = a.valid_head ∧
        A.valid_tail = endIdx (u ++ t :: i :: w) ∧
        A.valid_count = a.valid_count + 1 ∧
        A.internal_vec.length = a.max_size ∧
        A.free_head = a1.free_head ∧
        (∀ x, x < a.max_size →
          (getE A x).next =
            (if x = t then i else if x = i then (getE a t).next else (getE a1 x).next) ∧
          (getE A x).pre =
            (if x = i then t else if x = (getE a t).next then i else (getE a1 x).pre) ∧
          (getE A x).data = (if x = i then v else (getE a1 x).data) ∧
          (getE A x).cur = (getE a1 x).cur ∧
          (getE A x).valid = (getE a1 x).valid) := by
    cases w with
    | nil =>
      have hnS : (getE a t).next = INVALID_INDEX := by
        have h2 := hsplit.2
        rwa [chain_nil, beq_iff_eq] at h2
      have htail : a.valid_tail = t := by
        rw [hInv.vtail, endIdx_append_of_ne_nil u [t] (by simp), endIdx_singleton]
      rw [htcur] at hrun
      rw [if_pos (show a1.valid_tail = t by rw [hvt, htail])] at hrun
      refine ⟨_, hrun, hms, hvh, ?_, hvc, by simpa using hlen1, rfl, ?_⟩
      · show (i : Nat) = endIdx (u ++ [t, i])
        rw [endIdx_append_of_ne_nil u [t, i] (by simp), endIdx_cons_cons, endIdx_singleton]
      · intro x hx
        have hxS : x ≠ (getE a t).next := by
          rw [hnS]
          exact Nat.ne_of_lt (lt_trans hx hInv.ms_lt)
        rw [getE_upd2 ({ a1 with valid_tail := i } : QuickArray T) i t _ _ hti
          (by simpa using hi_len1) (by simpa using ht_len1) x]
        by_cases hxt : x = t
        · subst hxt
          simp [hti, hxS]
        · by_cases hxi : x = i
          · subst hxi
            simp [hxt]
          · simp [hxt, hxi, hxS]
    | cons w0 ws =>
      have hw0 : (getE a t).next = w0 := ((chain_cons_iff _ _ _ _ _).mp hsplit.2).1
      have hw0mem : w0 ∈ u ++ t :: w0 :: ws := by simp
      have hw0_lt : w0 < a.max_size := hInv.mem_vl_lt hw0mem
      have hw0_len1 : w0 < a1.internal_vec.length := by rw [hlen1]; exact hw0_lt
      have htw0 : t ≠ w0 := fun hh => hnextT_ne_t (by rw [hw0, ← hh])
      have hiw0 : i ≠ w0 := fun hh => hnextT_ne_i (by rw [hw0, ← hh])
      have htail_ne : a1.valid_tail ≠ t := by
        rw [hvt, hInv.vtail, endIdx_append_of_ne_nil u (t :: w0 :: ws) (by simp),
          endIdx_cons_of_ne_nil t (w0 :: ws) (by simp)]
        intro hh
        exact ht_nw (hh ▸ endIdx_mem (w0 :: ws) (by simp))
      rw [htcur, hw0] at hrun
      rw [if_neg htail_ne] at hrun
      refine ⟨_, hrun, hms, hvh, ?_, hvc, by simpa using hlen1, rfl, ?_⟩
      · show a1.valid_tail = endIdx (u ++ t :: i :: w0 :: ws)
        rw [hvt, hInv.vtail, endIdx_append_of_ne_nil u (t :: w0 :: ws) (by simp),
          endIdx_append_of_ne_nil u (t :: i :: w0 :: ws) (by simp),
          endIdx_cons_of_ne_nil t (w0 :: ws) (by simp),
          endIdx_cons_of_ne_nil t (i :: w0 :: ws) (by simp),
          endIdx_cons_of_ne_nil i (w0 :: ws) (by simp)]
      · intro x hx
        rw [hw0]
        rw [getE_upd3 a1 w0 i t _ _ _ hti htw0 hiw0
          hw0_len1 hi_len1 ht_len1 x]
        by_cases hxt : x = t
        · subst hxt
          simp [hti, htw0]
        · by_cases hxi : x = i
          · subst hxi
            simp [hxt]
          · by_cases hxw0 : x = w0
            · subst hxw0
              simp [hxt, hxi]
            · simp [hxt, hxi, hxw0]
  clear hrun
  have hnextA : ∀ x ∈ u ++ t :: w, x ≠ t → (getE A x).next = (getE a x).next := by
    intro x hxmem hxt
    have hx : x < a.max_size := hInv.mem_vl_lt hxmem
    have hxi : x ≠ i := hvmem_ne_i x hxmem
    rw [(hchar x hx).1, if_neg hxt, if_neg hxi]
    exact (hoth x hxi).1
  have hpreA : ∀ x ∈ u ++ t :: w, x ≠ i → x ≠ (getE a t).next →
      (getE A x).pre = (getE a x).pre := by
    intro x hxmem hxi hxn
    have hx : x < a.max_size := hInv.mem_vl_lt hxmem
    rw [(hchar x hx).2.1, if_neg hxi, if_neg hxn, (hvlsame x hxmem)]
  refine ⟨A, hA, ?_, hAms, hAvh, hAvc, ?_, ?_, ?_⟩
  · -- the invariant for the new lists
    refine ⟨?_, ?_, ?_, ?_, hAvt, ?_, ?_, ?_, ?_⟩
    · rw [hAlen, hAms]
    · rw [hAms]; exact hInv.ms_lt
    · rw [hAvc, hInv.count]; simp; omega
    · -- valid chain
      rw [hAvh, chain_append_cons_iff]
      constructor
      · rw [chain_congr A a _ _ u ?_]
        · exact hsplit.1
        · intro x hxu
          exact hnextA x (List.mem_append_left _ hxu)
            (fun hh => (hu_disj hxu) (hh ▸ List.mem_cons_self _ _))
      · have hAt : (getE A t).next = i := by
          rw [(hchar t ht_lt).1, if_pos rfl]
        rw [hAt, chain_cons_iff]
        refine ⟨rfl, ?_⟩
        have hAi : (getE A i).next = (getE a t).next := by
          rw [(hchar i hi_lt).1, if_neg (Ne.symm hti), if_pos rfl]
        rw [hAi, chain_congr A a _ _ w ?_]
        · exact hsplit.2
        · intro x hxw
          exact hnextA x (List.mem_append_right _ (List.mem_cons_of_mem _ hxw))
            (fun hh => ht_nw (hh ▸ hxw))
    · -- free chain
      rw [hAfh, chain_congr A a1 _ _ fl' ?_]
      · exact hfc1
      · intro x hxf
        have hxv : x ∈ i :: fl' := List.mem_cons_of_mem _ hxf
        have hx : x < a.max_size := hInv.mem_fl_lt hxv
        have hxi : x ≠ i := fun hh => (List.nodup_cons.mp hndf).1 (hh ▸ hxf)
        have hxt : x ≠ t := hfl_ne_v x hxf t htmem
        rw [(hchar x hx).1, if_neg hxt, if_neg hxi]
    · -- cur fields
      intro x hx
      rw [hAms] at hx
      rw [(hchar x hx).2.2.2.1]
      by_cases hxi : x = i
      · subst hxi
        have : (getE a1 x).cur = (getE a x).cur := by rw [hgi]
        rw [this]
        exact hInv.curEq x hx
      · rw [(hoth x hxi).2.1]
        exact hInv.curEq x hx
    · -- occupancy flags
      intro x hx
      rw [hAms] at hx
      rw [(hchar x hx).2.2.2.2]
      by_cases hxi : x = i
      · subst hxi
        have : (getE a1 x).valid = true := by rw [hgi]
        rw [this]
        simp
      · rw [(hoth x hxi).2.2.1]
        rw [hInv.validIff x hx]
        simp only [List.mem_append, List.mem_cons]
        constructor
        · rintro (h1 | h2 | h3)
          · exact Or.inl h1
          · exact Or.inr (Or.inl h2)
          · exact Or.inr (Or.inr (Or.inr h3))
        · rintro (h1 | h2 | h2 | h3)
          · exact Or.inl h1
          · exact Or.inr (Or.inl h2)
          · exact absurd h2 hxi
          · exact Or.inr (Or.inr h3)
    · rw [hAms]
      exact (perm_insert_mid u w fl' t i).trans hInv.perm
  · have := (hchar i hi_lt).2.2.1
    rw [if_pos rfl] at this
    exact this
  · intro j hji hj
    have := (hchar j hj).2.2.1
    rw [if_neg hji] at this
    rw [this]
    exact (hoth j hji).2.2.2
  · -- PreOk is carried over
    intro hp
    have hvpre := hp.vpre
    rw [preChain_append] at hvpre
    obtain ⟨hpu, hptw⟩ := Bool.and_eq_true_iff.mp hvpre
    have hptw' : (((getE a t).pre == u.getLastD INVALID_INDEX) && preChain a t w) = true :=
      hptw
    obtain ⟨hpret, hprew⟩ := Bool.and_eq_true_iff.mp hptw'
    constructor
    · rw [preChain_append]
      refine Bool.and_eq_true_iff.mpr ⟨?_, ?_⟩
      · rw [preChain_congr A a _ u ?_]
        · exact hpu
        · intro x hxu
          have hxmem : x ∈ u ++ t :: w := List.mem_append_left _ hxu
          refine hpreA x hxmem (hvmem_ne_i x hxmem) ?_
          rcases hnextT with hS | hw
          · rw [hS]
            exact Nat.ne_of_lt (lt_trans (hInv.mem_vl_lt hxmem) hInv.ms_lt)
          · exact fun hh => (hu_disj hxu) (by rw [hh]; exact List.mem_cons_of_mem _ hw)
      · show (((getE A t).pre == u.getLastD INVALID_INDEX) &&
          (((getE A i).pre == t) && preChain A i w)) = true
        refine Bool.and_eq_true_iff.mpr ⟨?_, Bool.and_eq_true_iff.mpr ⟨?_, ?_⟩⟩
        · rw [hpreA t htmem hti (Ne.symm hnextT_ne_t)]
          exact hpret
        · have := (hchar i hi_lt).2.1
          rw [if_pos rfl] at this
          rw [this]
          exact beq_self_eq_true t
        · cases w with
          | nil => rfl
          | cons w0 ws =>
            have hw0 : (getE a t).next = w0 := ((chain_cons_iff _ _ _ _ _).mp hsplit.2).1
            have hw0mem : w0 ∈ u ++ t :: w0 :: ws := by simp
            have hw0_lt : w0 < a.max_size := hInv.mem_vl_lt hw0mem
            have hw0_nodup : w0 ∉ ws :=
              (List.nodup_cons.mp (List.nodup_cons.mp htw_nd).2).1
            show (((getE A w0).pre == i) && preChain A w0 ws) = true
            refine Bool.and_eq_true_iff.mpr ⟨?_, ?_⟩
            · have := (hchar w0 hw0_lt).2.1
              rw [if_neg (fun hh => hInv.disjoint hw0mem (by rw [hh]; exact himem)),
                if_pos hw0.symm] at this
              rw [this]
              exact beq_self_eq_true i
            · rw [preChain_congr A a _ ws ?_]
              · have hprew' : (((getE a w0).pre == t) && preChain a w0 ws) = true := hprew
                exact (Bool.and_eq_true_iff.mp hprew').2
              · intro x hxw
                have hxmem : x ∈ u ++ t :: w0 :: ws :=
                  List.mem_append_right _
                    (List.mem_cons_of_mem _ (List.mem_cons_of_mem _ hxw))
                refine hpreA x hxmem (hvmem_ne_i x hxmem) ?_
                rw [hw0]
                exact fun hh => hw0_nodup (hh ▸ hxw)
    · intro hne
      rw [hAfh] at hne ⊢
      cases hfl : fl' with
      | nil =>
        rw [hfl] at hfc1
        rw [chain_nil, beq_iff_eq] at hfc1
        exact absurd hfc1 hne
      | cons f0 fs =>
        rw [hfl] at hfc1
        have hf0 : a1.free_head = f0 := ((chain_cons_iff _ _ _ _ _).mp hfc1).1
        have hf0mem : f0 ∈ fl' := by rw [hfl]; exact List.mem_cons_self _ _
        have hf0v : f0 ∈ i :: fl' := List.mem_cons_of_mem _ hf0mem
        have hf0_lt : f0 < a.max_size := hInv.mem_fl_lt hf0v
        have hf0i : f0 ≠ i := fun hh => (List.nodup_cons.mp hndf).1 (hh ▸ hf0mem)
        have hf0n : f0 ≠ (getE a t).next := by
          rcases hnextT with hS | hw
          · rw [hS]
            exact Nat.ne_of_lt (lt_trans hf0_lt hInv.ms_lt)
          · exact hfl_ne_v f0 hf0mem _
              (List.mem_append_right _ (List.mem_cons_of_mem _ hw))
        rw [hf0]
        have := (hchar f0 hf0_lt).2.1
        rw [if_neg hf0i, if_neg hf0n] at this
        rw [this, ← hf0]
        exact hfhpre1 hne

theorem perm_insert_mid2 (u w fl' : List Nat) (t i : Nat) :
    ((u ++ i :: t :: w) ++ fl').Perm ((u ++ t :: w) ++ (i :: fl')) := by
  rw [List.perm_iff_count]
  intro x
  simp only [List.count_append, List.count_cons]
  omega

/-- Success specification of `insert_before` at an occupied target `t` with a
nonempty free list; needs the `pre` links to be coherent (`PreOk`) because the
splice repairs the predecessor through `target.pre`. -/
theorem insert_before_ok (a : QuickArray T) (u w fl' : List Nat) (t i : Nat) (v : T)
    (hInv : Inv a (u ++ t :: w) (i :: fl')) (hp : PreOk a (u ++ t :: w)) :
    ∃ a', insert_before a t v = (a', Except.ok i) ∧
      Inv a' (u ++ i :: t :: w) fl' ∧
      PreOk a' (u ++ i :: t :: w) ∧
      a'.max_size = a.max_size ∧
      a'.valid_count = a.valid_count + 1 ∧
      (getE a' i).data = v ∧
      (∀ j, j ≠ i → j < a.max_size → (getE a' j).data = (getE a j).data) := by
  have htmem : t ∈ u ++ t :: w := by simp
  have himem : i ∈ i :: fl' := List.mem_cons_self _ _
  have ht_lt : t < a.max_size := hInv.mem_vl_lt htmem
  have hi_lt : i < a.max_size := hInv.mem_fl_lt himem
  have hi_ne : i ≠ INVALID_INDEX := hInv.mem_fl_ne_sentinel himem
  have htv : (getE a t).valid = true := hInv.valid_of_mem_vl htmem
  have htcur : (getE a t).cur = t := hInv.curEq t ht_lt
  have hti : t ≠ i := fun hh => hInv.disjoint htmem (hh ▸ himem)
  have hnd : (u ++ t :: w).Nodup := hInv.vl_nodup
  have hndf : (i :: fl').Nodup := hInv.fl_nodup
  obtain ⟨hu_nd, htw_nd, hu_disj⟩ := List.nodup_append.mp hnd
  have ht_nw : t ∉ w := (List.nodup_cons.mp htw_nd).1
  have ht_nu : t ∉ u := fun hh => hu_disj hh (List.mem_cons_self _ _)
  have hvmem_ne_i : ∀ x ∈ u ++ t :: w, x ≠ i :=
    fun x hx hh => hInv.disjoint hx (hh ▸ himem)
  have hfl_ne_v : ∀ x ∈ fl', ∀ y ∈ u ++ t :: w, x ≠ y :=
    fun x hx y hy hh => hInv.disjoint hy (hh ▸ List.mem_cons_of_mem _ hx)
  obtain ⟨a1, hc, hms, hvh, hvt, hvc, hlen, hfc1, hgi, hoth, hvlsame, hfhpre1⟩ :=
    consume_spec a (u ++ t :: w) fl' i hInv
  have hlen1 : a1.internal_vec.length = a.max_size := by rw [hlen, hInv.len]
  have hi_len1 : i < a1.internal_vec.length := by rw [hlen1]; exact hi_lt
  have ht_len1 : t < a1.internal_vec.length := by rw [hlen1]; exact ht_lt
  have hrun := insert_before_run a t v a1 i ht_lt htv hc hi_ne
  have hsplit := (chain_append_cons_iff a a.valid_head INVALID_INDEX t u w).mp hInv.vchain
  have hvpre0 := hp.vpre
  rw [preChain_append] at hvpre0
  obtain ⟨hpu, hptw⟩ := Bool.and_eq_true_iff.mp hvpre0
  have hptw' : (((getE a t).pre == u.getLastD INVALID_INDEX) && preChain a t w) = true :=
    hptw
  obtain ⟨hpretb, hprew⟩ := Bool.and_eq_true_iff.mp hptw'
  have hpret : (getE a t).pre = u.getLastD INVALID_INDEX := by
    exact beq_iff_eq.mp hpretb
  have hpreT : (getE a t).pre = INVALID_INDEX ∨ (getE a t).pre ∈ u := by
    rcases List.eq_nil_or_concat u with hu | ⟨u', p, hu⟩
    · left
      rw [hpret, hu]
      rfl
    · right
      rw [List.concat_eq_append] at hu
      rw [hpret, hu, List.getLastD_concat]
      simp
  have hpreT_ne_t : (getE a t).pre ≠ t := by
    rcases hpreT with hS | hu
    · rw [hS]
      exact fun hh => absurd hh.symm (Nat.ne_of_lt (lt_trans ht_lt hInv.ms_lt))
    · exact fun hh => ht_nu (hh ▸ hu)
  have hpreT_ne_i : (getE a t).pre ≠ i := by
    rcases hpreT with hS | hu
    · rw [hS]
      exact fun hh => hi_ne hh.symm
    · exact hvmem_ne_i _ (List.mem_append_left _ hu)
  obtain ⟨A, hA, hAms, hAvt, hAvc, hAlen, hAfh, hAvhl, hchar⟩ :
      ∃ A, insert_before a t v = (A, Except.ok i) ∧
        A.max_size = a.max_size ∧
        A.valid_tail = a.valid_tail ∧
        A.valid_count = a.valid_count + 1 ∧
        A.internal_vec.length = a.max_size ∧
        A.free_head = a1.free_head ∧
        ((u = [] ∧ A.valid_head = i) ∨ (u ≠ [] ∧ A.valid_head = a.valid_head)) ∧
        (∀ x, x < a.max_size →
          (getE A x).next =
            (if x = i then t else if x = (getE a t).pre then i else (getE a1 x).next) ∧
          (getE A x).pre =
            (if x = t then i else if x = i then (getE a t).pre else (getE a1 x).pre) ∧
          (getE A x).data = (if x = i then v else (getE a1 x).data) ∧
          (getE A x).cur = (getE a1 x).cur ∧
          (getE A x).valid = (getE a1 x).valid) := by
    rcases List.eq_nil_or_concat u with hu | ⟨u', p, hu⟩
    · subst hu
      have hpS : (getE a t).pre = INVALID_INDEX := by
        rw [hpret]
        rfl
      have hhead : a.valid_head = t := hInv.valid_head_of_vl_cons rfl
      rw [htcur] at hrun
      rw [if_pos (show a1.valid_head = t by rw [hvh, hhead])] at hrun
      refine ⟨_, hrun, hms, hvt, hvc, by simpa using hlen1, rfl, Or.inl ⟨rfl, rfl⟩, ?_⟩
      intro x hx
      have hxS : x ≠ (getE a t).pre := by
        rw [hpS]
        exact Nat.ne_of_lt (lt_trans hx hInv.ms_lt)
      rw [getE_upd2 ({ a1 with valid_head := i } : QuickArray T) i t _ _ hti
        (by simpa using hi_len1) (by simpa using ht_len1) x]
      by_cases hxt : x = t
      · subst hxt
        simp [hti, hxS]
      · by_cases hxi : x = i
        · subst hxi
          simp [hxt]
        · simp [hxt, hxi, hxS]
    · rw [List.concat_eq_append] at hu
      subst hu
      have hpp : (getE a t).pre = p := by
        rw [hpret, List.getLastD_concat]
      have hpmem : p ∈ u' ++ [p] := by simp
      have hpmemv : p ∈ (u' ++ [p]) ++ t :: w := List.mem_append_left _ hpmem
      have hp_lt : p < a.max_size := hInv.mem_vl_lt hpmemv
      have hp_len1 : p < a1.internal_vec.length := by rw [hlen1]; exact hp_lt
      have htp : t ≠ p := fun hh => ht_nu (hh ▸ hpmem)
      have hip : i ≠ p := fun hh => (hvmem_ne_i p hpmemv) hh.symm
      obtain ⟨u0, us, hu0⟩ : ∃ u0 us, u' ++ [p] = u0 :: us := by
        cases u' with
        | nil => exact ⟨p, [], rfl⟩
        | cons x xs => exact ⟨x, xs ++ [p], rfl⟩
      have hu0mem : u0 ∈ u' ++ [p] := by rw [hu0]; exact List.mem_cons_self _ _
      have hu0eq : (u' ++ [p]) ++ t :: w = u0 :: (us ++ t :: w) := by rw [hu0]; simp
      have hhead : a.valid_head = u0 :=
        hInv.valid_head_of_vl_cons hu0eq
      have hhead_ne : a1.valid_head ≠ t := by
        rw [hvh, hhead]
        exact fun hh => ht_nu (hh ▸ hu0mem)
      rw [htcur, hpp] at hrun
      rw [if_neg hhead_ne] at hrun
      refine ⟨_, hrun, hms, hvt, hvc, by simpa using hlen1, rfl,
        Or.inr ⟨by simp, hvh⟩, ?_⟩
      intro x hx
      rw [hpp]
      rw [getE_upd3 a1 p i t _ _ _ hti htp hip hp_len1 hi_len1 ht_len1 x]
      by_cases hxt : x = t
      · subst hxt
        simp [hti, htp]
      · by_cases hxi : x = i
        · subst hxi
          simp [hxt]
        · by_cases hxp : x = p
          · subst hxp
            simp [hxt, hxi]
          · simp [hxt, hxi, hxp]
  clear hrun
  have hnextA : ∀ x ∈ u ++ t :: w, x ≠ (getE a t).pre → (getE A x).next = (getE a x).next := by
    intro x hxmem hxp
    have hx : x < a.max_size := hInv.mem_vl_lt hxmem
    have hxi : x ≠ i := hvmem_ne_i x hxmem
    rw [(hchar x hx).1, if_neg hxi, if_neg hxp]
    exact (hoth x hxi).1
  have hpreA : ∀ x ∈ u ++ t :: w, x ≠ t → x ≠ i → (getE A x).pre = (getE a x).pre := by
    intro x hxmem hxt hxi
    have hx : x < a.max_size := hInv.mem_vl_lt hxmem
    rw [(hchar x hx).2.1, if_neg hxt, if_neg hxi, (hvlsame x hxmem)]
  refine ⟨A, hA, ?_, ?_, hAms, hAvc, ?_, ?_⟩
  · -- the invariant for the new lists
    refine ⟨?_, ?_, ?_, ?_, ?_, ?_, ?_, ?_, ?_⟩
    · rw [hAlen, hAms]
    · rw [hAms]; exact hInv.ms_lt
    · rw [hAvc, hInv.count]; simp; omega
    · -- valid chain
      rcases hAvhl with ⟨hu, hAvh⟩ | ⟨hu, hAvh⟩
      · subst hu
        rw [hAvh]
        simp only [List.nil_append]
        rw [chain_cons_iff]
        refine ⟨rfl, ?_⟩
        have hAi : (getE A i).next = t := by
          rw [(hchar i hi_lt).1, if_pos rfl]
        rw [hAi, chain_cons_iff]
        refine ⟨rfl, ?_⟩
        have hAt : (getE A t).next = (getE a t).next :=
          hnextA t htmem (Ne.symm hpreT_ne_t)
        rw [hAt, chain_congr A a _ _ w ?_]
        · exact hsplit.2
        · intro x hxw
          refine hnextA x (List.mem_append_right _ (List.mem_cons_of_mem _ hxw)) ?_
          rcases hpreT with hS | huu
          · rw [hS]
            exact Nat.ne_of_lt
              (lt_trans (hInv.mem_vl_lt
                (List.mem_append_right _ (List.mem_cons_of_mem _ hxw))) hInv.ms_lt)
          · exact absurd huu (List.not_mem_nil _)
      · rw [hAvh]
        obtain ⟨u', p, hu'⟩ : ∃ u' p, u = u' ++ [p] := by
          rcases List.eq_nil_or_concat u with h1 | ⟨u', p, h1⟩
          · exact absurd h1 hu
          · rw [List.concat_eq_append] at h1
            exact ⟨u', p, h1⟩
        subst hu'
        have hpp : (getE a t).pre = p := by
          rw [hpret, List.getLastD_concat]
        have hpmem : p ∈ u' ++ [p] := by simp
        have hpmemv : p ∈ (u' ++ [p]) ++ t :: w := List.mem_append_left _ hpmem
        have hp_lt : p < a.max_size := hInv.mem_vl_lt hpmemv
        have hpi : p ≠ i := hvmem_ne_i p hpmemv
        have hsplitu := (chain_append_cons_iff a a.valid_head t p u' []).mp
          (by simpa using hsplit.1)
        rw [show (u' ++ [p]) ++ i :: t :: w = u' ++ p :: i :: t :: w by simp,
          chain_append_cons_iff]
        constructor
        · rw [chain_congr A a _ _ u' ?_]
          · exact hsplitu.1
          · intro x hxu
            have hxmem : x ∈ (u' ++ [p]) ++ t :: w := by simp [hxu]
            refine hnextA x hxmem ?_
            rw [hpp]
            intro hh
            have hnd' : (u' ++ [p]).Nodup := hu_nd
            rw [List.nodup_append] at hnd'
            exact (hnd'.2.2 (hh ▸ hxu)) (by simp)
        · have hAp : (getE A p).next = i := by
            rw [(hchar p hp_lt).1, if_neg hpi, if_pos hpp.symm]
          rw [hAp, chain_cons_iff]
          refine ⟨rfl, ?_⟩
          have hAi : (getE A i).next = t := by
            rw [(hchar i hi_lt).1, if_pos rfl]
          rw [hAi, chain_cons_iff]
          refine ⟨rfl, ?_⟩
          have hAt : (getE A t).next = (getE a t).next :=
            hnextA t htmem (Ne.symm hpreT_ne_t)
          rw [hAt, chain_congr A a _ _ w ?_]
          · exact hsplit.2
          · intro x hxw
            refine hnextA x
              (List.mem_append_right _ (List.mem_cons_of_mem _ hxw)) ?_
            rw [hpp]
            intro hh
            exact hu_disj (hh ▸ hpmem) (List.mem_cons_of_mem _ hxw)
    · -- valid tail unchanged
      rw [hAvt, hInv.vtail, endIdx_append_of_ne_nil u (t :: w) (by simp),
        endIdx_append_of_ne_nil u (i :: t :: w) (by simp),
        endIdx_cons_of_ne_nil i (t :: w) (by simp)]
    · -- free chain
      rw [hAfh, chain_congr A a1 _ _ fl' ?_]
      · exact hfc1
      · intro x hxf
        have hxv : x ∈ i :: fl' := List.mem_cons_of_mem _ hxf
        have hx : x < a.max_size := hInv.mem_fl_lt hxv
        have hxi : x ≠ i := fun hh => (List.nodup_cons.mp hndf).1 (hh ▸ hxf)
        have hxp : x ≠ (getE a t).pre := by
          rcases hpreT with hS | huu
          · rw [hS]
            exact Nat.ne_of_lt (lt_trans hx hInv.ms_lt)
          · exact hfl_ne_v x hxf _ (List.mem_append_left _ huu)
        rw [(hchar x hx).1, if_neg hxi, if_neg hxp]
    · -- cur fields
      intro x hx
      rw [hAms] at hx
      rw [(hchar x hx).2.2.2.1]
      by_cases hxi : x = i
      · subst hxi
        have : (getE a1 x).cur = (getE a x).cur := by rw [hgi]
        rw [this]
        exact hInv.curEq x hx
      · rw [(hoth x hxi).2.1]
        exact hInv.curEq x hx
    · -- occupancy flags
      intro x hx
      rw [hAms] at hx
      rw [(hchar x hx).2.2.2.2]
      by_cases hxi : x = i
      · subst hxi
        have : (getE a1 x).valid = true := by rw [hgi]
        rw [this]
        simp
      · rw [(hoth x hxi).2.2.1]
        rw [hInv.validIff x hx]
        simp only [List.mem_append, List.mem_cons]
        constructor
        · rintro (h1 | h2 | h3)
          · exact Or.inl h1
          · exact Or.inr (Or.inr (Or.inl h2))
          · exact Or.inr (Or.inr (Or.inr h3))
        · rintro (h1 | h2 | h2 | h3)
          · exact Or.inl h1
          · exact absurd h2 hxi
          · exact Or.inr (Or.inl h2)
          · exact Or.inr (Or.inr h3)
    · rw [hAms]
      exact (perm_insert_mid2 u w fl' t i).trans hInv.perm
  · -- PreOk of the result
    constructor
    · rw [preChain_append]
      refine Bool.and_eq_true_iff.mpr ⟨?_, ?_⟩
      · rw [preChain_congr A a _ u ?_]
        · exact hpu
        · intro x hxu
          have hxmem : x ∈ u ++ t :: w := List.mem_append_left _ hxu
          exact hpreA x hxmem
            (fun hh => hu_disj hxu (hh ▸ List.mem_cons_self _ _))
            (hvmem_ne_i x hxmem)
      · show (((getE A i).pre == u.getLastD INVALID_INDEX) &&
          (((getE A t).pre == i) && preChain A t w)) = true
        refine Bool.and_eq_true_iff.mpr ⟨?_, Bool.and_eq_true_iff.mpr ⟨?_, ?_⟩⟩
        · have := (hchar i hi_lt).2.1
          rw [if_neg (Ne.symm hti), if_pos rfl] at this
          rw [this, ← hpret]
          exact beq_self_eq_true _
        · have := (hchar t ht_lt).2.1
          rw [if_pos rfl] at this
          rw [this]
          exact beq_self_eq_true i
        · rw [preChain_congr A a _ w ?_]
          · exact hprew
          · intro x hxw
            have hxmem : x ∈ u ++ t :: w :=
              List.mem_append_right _ (List.mem_cons_of_mem _ hxw)
            exact hpreA x hxmem (fun hh => ht_nw (hh ▸ hxw)) (hvmem_ne_i x hxmem)
    · intro hne
      rw [hAfh] at hne ⊢
      cases hfl : fl' with
      | nil =>
        rw [hfl] at hfc1
        rw [chain_nil, beq_iff_eq] at hfc1
        exact absurd hfc1 hne
      | cons f0 fs =>
        rw [hfl] at hfc1
        have hf0 : a1.free_head = f0 := ((chain_cons_iff _ _ _ _ _).mp hfc1).1
        have hf0mem : f0 ∈ fl' := by rw [hfl]; exact List.mem_cons_self _ _
        have hf0v : f0 ∈ i :: fl' := List.mem_cons_of_mem _ hf0mem
        have hf0_lt : f0 < a.max_size := hInv.mem_fl_lt hf0v
        have hf0i : f0 ≠ i := fun hh => (List.nodup_cons.mp hndf).1 (hh ▸ hf0mem)
        have hf0t : f0 ≠ t := hfl_ne_v f0 hf0mem t htmem
        rw [hf0]
        have := (hchar f0 hf0_lt).2.1
        rw [if_neg hf0t, if_neg hf0i] at this
        rw [this, ← hf0]
        exact hfhpre1 hne
  · have := (hchar i hi_lt).2.2.1
    rw [if_pos rfl] at this
    exact this
  · intro j hji hj
    have := (hchar j hj).2.2.1
    rw [if_neg hji] at this
    rw [this]
    exact (hoth j hji).2.2.2

/-- Success specification of `push_back` with a nonempty free list: the popped
free head `i` is appended at the tail of the valid list. -/
theorem push_back_ok (a : QuickArray T) (vl fl' : List Nat) (i : Nat) (v : T)
    (hInv : Inv a vl (i :: fl')) :
    ∃ a', push_back a v = (a', Except.ok i) ∧
      Inv a' (vl ++ [i]) fl' ∧
      a'.max_size = a.max_size ∧
      a'.valid_count = a.valid_count + 1 ∧
      (getE a' i).data = v ∧
      (∀ j, j ≠ i → j < a.max_size → (getE a' j).data = (getE a j).data) ∧
      (PreOk a vl → PreOk a' (vl ++ [i])) := by
  have himem : i ∈ i :: fl' := List.mem_cons_self _ _
  have hi_lt : i < a.max_size := hInv.mem_fl_lt himem
  have hi_ne : i ≠ INVALID_INDEX := hInv.mem_fl_ne_sentinel himem
  have hndf : (i :: fl').Nodup := hInv.fl_nodup
  have hfhi : a.free_head = i := hInv.free_head_of_fl_cons rfl
  rcases List.eq_nil_or_concat vl with hvl | ⟨u', p, hvl⟩
  · subst hvl
    have htS : a.valid_tail = INVALID_INDEX := by rw [hInv.vtail]; rfl
    obtain ⟨a1, hc, hms, hvh, hvt, hvc, hlen, hfc1, hgi, hoth, hvlsame, hfhpre1⟩ :=
      consume_spec a [] fl' i hInv
    have hlen1 : a1.internal_vec.length = a.max_size := by rw [hlen, hInv.len]
    have hi_len1 : i < a1.internal_vec.length := by rw [hlen1]; exact hi_lt
    have hrun := push_back_run_empty a v a1 i htS hc hi_ne
    obtain ⟨A, hA, hAms, hAvh, hAvt, hAvc, hAlen, hAfh, hchar⟩ :
        ∃ A, push_back a v = (A, Except.ok i) ∧
          A.max_size = a.max_size ∧ A.valid_head = i ∧ A.valid_tail = i ∧
          A.valid_count = a.valid_count + 1 ∧
          A.internal_vec.length = a.max_size ∧ A.free_head = a1.free_head ∧
          (∀ x, x < a.max_size →
            getE A x = if x = i then { getE a1 i with data := v } else getE a1 x) := by
      refine ⟨_, hrun, hms, rfl, rfl, hvc, by simpa using hlen1, rfl, ?_⟩
      intro x hx
      by_cases hxi : x = i
      · subst hxi
        rw [if_pos rfl, getE_set_vt_vh, getE_updE_self _ _ _ hi_len1]
      · rw [if_neg hxi, getE_set_vt_vh, getE_updE_ne _ _ _ _ hxi]
    refine ⟨A, hA, ?_, hAms, hAvc, ?_, ?_, ?_⟩
    · refine ⟨?_, ?_, ?_, ?_, ?_, ?_, ?_, ?_, ?_⟩
      · rw [hAlen, hAms]
      · rw [hAms]; exact hInv.ms_lt
      · rw [hAvc, hInv.count]; simp
      · show chain A A.valid_head [i] INVALID_INDEX = true
        rw [hAvh, chain_cons_iff]
        refine ⟨rfl, ?_⟩
        rw [hchar i hi_lt, if_pos rfl]
        have : (getE a1 i).next = INVALID_INDEX := by rw [hgi]
        show chain A ({ getE a1 i with data := v } : QuickElement T).next [] INVALID_INDEX
          = true
        rw [show ({ getE a1 i with data := v } : QuickElement T).next = (getE a1 i).next
          from rfl, this, chain_nil]
        simp
      · rw [hAvt]; rfl
      · rw [hAfh, chain_congr A a1 _ _ fl' ?_]
        · exact hfc1
        · intro x hxf
          have hx : x < a.max_size := hInv.mem_fl_lt (List.mem_cons_of_mem _ hxf)
          have hxi : x ≠ i := fun hh => (List.nodup_cons.mp hndf).1 (hh ▸ hxf)
          rw [hchar x hx, if_neg hxi]
      · intro x hx
        rw [hAms] at hx
        rw [hchar x hx]
        by_cases hxi : x = i
        · subst hxi
          rw [if_pos rfl]
          have : (getE a1 x).cur = (getE a x).cur := by rw [hgi]
          show (getE a1 x).cur = x
          rw [this]
          exact hInv.curEq x hx
        · rw [if_neg hxi, (hoth x hxi).2.1]
          exact hInv.curEq x hx
      · intro x hx
        rw [hAms] at hx
        rw [hchar x hx]
        by_cases hxi : x = i
        · subst hxi
          rw [if_pos rfl]
          have : (getE a1 x).valid = true := by rw [hgi]
          show (getE a1 x).valid = true ↔ x ∈ [] ++ [x]
          rw [this]
          simp
        · rw [if_neg hxi, (hoth x hxi).2.2.1, hInv.validIff x hx]
          simp [hxi]
      · rw [hAms]
        simpa using hInv.perm
    · rw [hchar i hi_lt, if_pos rfl]
    · intro j hji hj
      rw [hchar j hj, if_neg hji]
      exact (hoth j hji).2.2.2
    · intro hpre
      constructor
      · show (((getE A i).pre == INVALID_INDEX) && preChain A i []) = true
        rw [hchar i hi_lt, if_pos rfl]
        have h1 : (getE a1 i).pre = (getE a i).pre := by rw [hgi]
        have h2 : (getE a i).pre = INVALID_INDEX := by
          have := hpre.fhpre (by rw [hfhi]; exact hi_ne)
          rwa [hfhi] at this
        show (((getE a1 i).pre == INVALID_INDEX) && true) = true
        rw [h1, h2]
        simp
      · intro hne
        rw [hAfh] at hne ⊢
        cases hfl : fl' with
        | nil =>
          rw [hfl] at hfc1
          rw [chain_nil, beq_iff_eq] at hfc1
          exact absurd hfc1 hne
        | cons f0 fs =>
          rw [hfl] at hfc1
          have hf0 : a1.free_head = f0 := ((chain_cons_iff _ _ _ _ _).mp hfc1).1
          have hf0mem : f0 ∈ fl' := by rw [hfl]; exact List.mem_cons_self _ _
          have hf0_lt : f0 < a.max_size := hInv.mem_fl_lt (List.mem_cons_of_mem _ hf0mem)
          have hf0i : f0 ≠ i := fun hh => (List.nodup_cons.mp hndf).1 (hh ▸ hf0mem)
          rw [hf0, hchar f0 hf0_lt, if_neg hf0i, ← hf0]
          exact hfhpre1 hne
  · have hvl' := hvl
    rw [List.concat_eq_append] at hvl'
    subst hvl'
    have hpend : endIdx (u' ++ [p]) = p := by
      rw [endIdx_append_of_ne_nil u' [p] (by simp), endIdx_singleton]
    have hpmem : p ∈ u' ++ [p] := by simp
    have hp_lt : p < a.max_size := hInv.mem_vl_lt hpmem
    have htne : a.valid_tail ≠ INVALID_INDEX := by
      rw [hInv.vtail, hpend]
      exact Nat.ne_of_lt (lt_trans hp_lt hInv.ms_lt)
    have htail : a.valid_tail = p := by rw [hInv.vtail, hpend]
    have hstep : push_back a v = insert_after a a.valid_tail v := by
      rw [push_back, if_neg htne]
    rw [hstep, htail]
    have hInv2 : Inv a (u' ++ p :: []) (i :: fl') := by simpa using hInv
    obtain ⟨a', hA, hI, h1, h2, h3, h4, h5, h6⟩ :=
      insert_after_ok a u' [] fl' p i v hInv2
    refine ⟨a', hA, ?_, h1, h3, h4, h5, ?_⟩
    · have : u' ++ p :: i :: [] = (u' ++ [p]) ++ [i] := by simp
      rwa [this] at hI
    · intro hpre
      have hpre2 : PreOk a (u' ++ p :: []) := by simpa using hpre
      have := h6 hpre2
      have heq : u' ++ p :: i :: [] = (u' ++ [p]) ++ [i] := by simp
      rwa [heq] at this

/-- Success specification of `push_front` with a nonempty free list: the
popped free head `i` becomes the new head of the valid list. -/
theorem push_front_ok (a : QuickArray T) (vl fl' : List Nat) (i : Nat) (v : T)
    (hInv : Inv a vl (i :: fl')) :
    ∃ a', push_front a v = (a', Except.ok i) ∧
      Inv a' (i :: vl) fl' ∧
      a'.max_size = a.max_size ∧
      a'.valid_count = a.valid_count + 1 ∧
      (getE a' i).data = v ∧
      (∀ j, j ≠ i → j < a.max_size → (getE a' j).data = (getE a j).data) ∧
      (PreOk a vl → PreOk a' (i :: vl)) := by
  have himem : i ∈ i :: fl' := List.mem_cons_self _ _
  have hi_lt : i < a.max_size := hInv.mem_fl_lt himem
  have hi_ne : i ≠ INVALID_INDEX := hInv.mem_fl_ne_sentinel himem
  have hndf : (i :: fl').Nodup := hInv.fl_nodup
  cases vl with
  | nil =>
    have hhS : a.valid_head = INVALID_INDEX := hInv.valid_head_of_vl_nil rfl
    have hstep : push_front a v = push_back a v := by
      rw [push_front, if_pos hhS]
    rw [hstep]
    obtain ⟨a', hA, hI, h1, h2, h3, h4, h5⟩ := push_back_ok a [] fl' i v hInv
    exact ⟨a', hA, by simpa using hI, h1, h2, h3, h4, fun hp => by simpa using h5 hp⟩
  | cons v0 vs =>
    have hv0 : a.valid_head = v0 := hInv.valid_head_of_vl_cons rfl
    have hv0mem : v0 ∈ v0 :: vs := List.mem_cons_self _ _
    have hv0_lt : v0 < a.max_size := hInv.mem_vl_lt hv0mem
    have hhne : a.valid_head ≠ INVALID_INDEX := by
      rw [hv0]
      exact Nat.ne_of_lt (lt_trans hv0_lt hInv.ms_lt)
    have hiv0 : i ≠ v0 := fun hh => hInv.disjoint hv0mem (by rw [← hh]; exact himem)
    have hvmem_ne_i : ∀ x ∈ v0 :: vs, x ≠ i :=
      fun x hx hh => hInv.disjoint hx (hh ▸ himem)
    obtain ⟨a1, hc, hms, hvh, hvt, hvc, hlen, hfc1, hgi, hoth, hvlsame, hfhpre1⟩ :=
      consume_spec a (v0 :: vs) fl' i hInv
    have hlen1 : a1.internal_vec.length = a.max_size := by rw [hlen, hInv.len]
    have hi_len1 : i < a1.internal_vec.length := by rw [hlen1]; exact hi_lt
    have hv0_len1 : v0 < a1.internal_vec.length := by rw [hlen1]; exact hv0_lt
    have hrun := push_front_run a v a1 i hhne hc hi_ne
    rw [hvh, hv0] at hrun
    obtain ⟨A, hA, hAms, hAvh, hAvt, hAvc, hAlen, hAfh, hchar⟩ :
        ∃ A, push_front a v = (A, Except.ok i) ∧
          A.max_size = a.max_size ∧ A.valid_head = i ∧ A.valid_tail = a.valid_tail ∧
          A.valid_count = a.valid_count + 1 ∧
          A.internal_vec.length = a.max_size ∧ A.free_head = a1.free_head ∧
          (∀ x, x < a.max_size →
            getE A x =
              if x = v0 then { getE a1 v0 with pre := i }
              else if x = i then { getE a1 i with data := v, next := v0 }
              else getE a1 x) := by
      refine ⟨_, hrun, hms, rfl, hvt, hvc, by simpa using hlen1, rfl, ?_⟩
      intro x hx
      rw [getE_set_vh, getE_upd2 a1 i v0 _ _ (Ne.symm hiv0) hi_len1 hv0_len1 x]
    refine ⟨A, hA, ?_, hAms, hAvc, ?_, ?_, ?_⟩
    · refine ⟨?_, ?_, ?_, ?_, ?_, ?_, ?_, ?_, ?_⟩
      · rw [hAlen, hAms]
      · rw [hAms]; exact hInv.ms_lt
      · rw [hAvc, hInv.count]; simp
      · show chain A A.valid_head (i :: v0 :: vs) INVALID_INDEX = true
        rw [hAvh, chain_cons_iff]
        refine ⟨rfl, ?_⟩
        have hAi : (getE A i).next = v0 := by
          rw [hchar i hi_lt, if_neg hiv0, if_pos rfl]
        rw [hAi]
        have horig : chain a v0 (v0 :: vs) INVALID_INDEX = true := by
          have := hInv.vchain
          rwa [hv0] at this
        rw [chain_congr A a _ _ (v0 :: vs) ?_]
        · exact horig
        · intro x hx
          have hx_lt : x < a.max_size := hInv.mem_vl_lt hx
          have hxi : x ≠ i := hvmem_ne_i x hx
          by_cases hxv0 : x = v0
          · subst hxv0
            rw [hchar x hx_lt, if_pos rfl]
            show (getE a1 x).next = (getE a x).next
            exact (hoth x hxi).1
          · rw [hchar x hx_lt, if_neg hxv0, if_neg hxi]
            exact (hoth x hxi).1
      · rw [hAvt, hInv.vtail, endIdx_cons_of_ne_nil i (v0 :: vs) (by simp)]
      · rw [hAfh, chain_congr A a1 _ _ fl' ?_]
        · exact hfc1
        · intro x hxf
          have hx : x < a.max_size := hInv.mem_fl_lt (List.mem_cons_of_mem _ hxf)
          have hxi : x ≠ i := fun hh => (List.nodup_cons.mp hndf).1 (hh ▸ hxf)
          have hxv0 : x ≠ v0 :=
            fun hh => hInv.disjoint (hh ▸ hv0mem) (List.mem_cons_of_mem _ hxf)
          rw [hchar x hx, if_neg hxv0, if_neg hxi]
      · intro x hx
        rw [hAms] at hx
        rw [hchar x hx]
        by_cases hxv0 : x = v0
        · subst hxv0
          rw [if_pos rfl]
          show (getE a1 x).cur = x
          rw [(hoth x (hvmem_ne_i x hv0mem)).2.1]
          exact hInv.curEq x hx
        · rw [if_neg hxv0]
          by_cases hxi : x = i
          · subst hxi
            rw [if_pos rfl]
            show (getE a1 x).cur = x
            have : (getE a1 x).cur = (getE a x).cur := by rw [hgi]
            rw [this]
            exact hInv.curEq x hx
          · rw [if_neg hxi, (hoth x hxi).2.1]
            exact hInv.curEq x hx
      · intro x hx
        rw [hAms] at hx
        rw [hchar x hx]
        by_cases hxv0 : x = v0
        · subst hxv0
          rw [if_pos rfl]
          show (getE a1 x).valid = true ↔ x ∈ i :: x :: vs
          rw [(hoth x (hvmem_ne_i x hv0mem)).2.2.1, hInv.validIff x hx]
          simp
        · rw [if_neg hxv0]
          by_cases hxi : x = i
          · subst hxi
            rw [if_pos rfl]
            show (getE a1 x).valid = true ↔ x ∈ x :: v0 :: vs
            have : (getE a1 x).valid = true := by rw [hgi]
            rw [this]
            simp
          · rw [if_neg hxi, (hoth x hxi).2.2.1, hInv.validIff x hx]
            simp [hxi]
      · rw [hAms]
        exact List.perm_middle.symm.trans hInv.perm
    · rw [hchar i hi_lt, if_neg hiv0, if_pos rfl]
    · intro j hji hj
      rw [hchar j hj]
      by_cases hjv0 : j = v0
      · subst hjv0
        rw [if_pos rfl]
        exact (hoth j hji).2.2.2
      · rw [if_neg hjv0, if_neg hji]
        exact (hoth j hji).2.2.2
    · intro hpre
      have hfhi : a.free_head = i := hInv.free_head_of_fl_cons rfl
      constructor
      · show (((getE A i).pre == INVALID_INDEX) && preChain A i (v0 :: vs)) = true
        refine Bool.and_eq_true_iff.mpr ⟨?_, ?_⟩
        · rw [hchar i hi_lt, if_neg hiv0, if_pos rfl]
          have h1 : ({ getE a1 i with data := v, next := v0 } : QuickElement T).pre
              = (getE a i).pre := by rw [show ({ getE a1 i with data := v, next := v0 } :
                QuickElement T).pre = (getE a1 i).pre from rfl, hgi]
          have h2 : (getE a i).pre = INVALID_INDEX := by
            have := hpre.fhpre (by rw [hfhi]; exact hi_ne)
            rwa [hfhi] at this
          rw [h1, h2]
          simp
        · show (((getE A v0).pre == i) && preChain A v0 vs) = true
          refine Bool.and_eq_true_iff.mpr ⟨?_, ?_⟩
          · rw [hchar v0 hv0_lt, if_pos rfl]
            simp
          · rw [preChain_congr A a _ vs ?_]
            · have := hpre.vpre
              have hthis : (((getE a v0).pre == INVALID_INDEX) && preChain a v0 vs)
                  = true := this
              exact (Bool.and_eq_true_iff.mp hthis).2
            · intro x hxvs
              have hxmem : x ∈ v0 :: vs := List.mem_cons_of_mem _ hxvs
              have hx : x < a.max_size := hInv.mem_vl_lt hxmem
              have hxv0 : x ≠ v0 :=
                fun hh => (List.nodup_cons.mp hInv.vl_nodup).1 (hh ▸ hxvs)
              have hxi : x ≠ i := hvmem_ne_i x hxmem
              rw [hchar x hx, if_neg hxv0, if_neg hxi, hvlsame x hxmem]
      · intro hne
        rw [hAfh] at hne ⊢
        cases hfl : fl' with
        | nil =>
          rw [hfl] at hfc1
          rw [chain_nil, beq_iff_eq] at hfc1
          exact absurd hfc1 hne
        | cons f0 fs =>
          rw [hfl] at hfc1
          have hf0 : a1.free_head = f0 := ((chain_cons_iff _ _ _ _ _).mp hfc1).1
          have hf0mem : f0 ∈ fl' := by rw [hfl]; exact List.mem_cons_self _ _
          have hf0_lt : f0 < a.max_size := hInv.mem_fl_lt (List.mem_cons_of_mem _ hf0mem)
          have hf0i : f0 ≠ i := fun hh => (List.nodup_cons.mp hndf).1 (hh ▸ hf0mem)
          have hf0v0 : f0 ≠ v0 :=
            fun hh => hInv.disjoint (hh ▸ hv0mem) (List.mem_cons_of_mem _ hf0mem)
          rw [hf0, hchar f0 hf0_lt, if_neg hf0v0, if_neg hf0i, ← hf0]
          exact hfhpre1 hne

/-! ### Error paths: all of them leave the state untouched -/

theorem consume_fail (a : QuickArray T) (h : a.free_head = INVALID_INDEX) :
    consume_ele a = (a, INVALID_INDEX) := by
  rw [consume_ele, if_pos h]

theorem insert_after_oob (a : QuickArray T) (t : Nat) (v : T) (h : a.max_size ≤ t) :
    insert_after a t v = (a, Except.error ErrDefine.InvalidIndex) := by
  rw [insert_after, if_pos h]

theorem insert_before_oob (a : QuickArray T) (t : Nat) (v : T) (h : a.max_size ≤ t) :
    insert_before a t v = (a, Except.error ErrDefine.InvalidIndex) := by
  rw [insert_before, if_pos h]

theorem insert_after_invalid (a : QuickArray T) (t : Nat) (v : T) (h1 : t < a.max_size)
    (h2 : (getE a t).valid = false) :
    insert_after a t v = (a, Except.error ErrDefine.InvalidIndex) := by
  rw [insert_after, if_neg (by omega)]
  simp [h2]

theorem insert_before_invalid (a : QuickArray T) (t : Nat) (v : T) (h1 : t < a.max_size)
    (h2 : (getE a t).valid = false) :
    insert_before a t v = (a, Except.error ErrDefine.InvalidIndex) := by
  rw [insert_before, if_neg (by omega)]
  simp [h2]

theorem insert_after_full (a : QuickArray T) (vl : List Nat) (t : Nat) (v : T)
    (hInv : Inv a vl []) (h1 : t < a.max_size) (h2 : (getE a t).valid = true) :
    insert_after a t v = (a, Except.error ErrDefine.ArrayIsFull) := by
  have hfS := hInv.free_head_of_fl_nil rfl
  rw [insert_after, if_neg (by omega)]
  simp [h2, consume_fail a hfS]

theorem insert_before_full (a : QuickArray T) (vl : List Nat) (t : Nat) (v : T)
    (hInv : Inv a vl []) (h1 : t < a.max_size) (h2 : (getE a t).valid = true) :
    insert_before a t v = (a, Except.error ErrDefine.ArrayIsFull) := by
  have hfS := hInv.free_head_of_fl_nil rfl
  rw [insert_before, if_neg (by omega)]
  simp [h2, consume_fail a hfS]

theorem push_back_full (a : QuickArray T) (vl : List Nat) (v : T) (hInv : Inv a vl []) :
    push_back a v = (a, Except.error ErrDefine.ArrayIsFull) := by
  have hfS := hInv.free_head_of_fl_nil rfl
  rcases List.eq_nil_or_concat vl with hvl | ⟨u', p, hvl⟩
  · subst hvl
    have htS : a.valid_tail = INVALID_INDEX := by rw [hInv.vtail]; rfl
    rw [push_back, if_pos htS, consume_fail a hfS]
    simp
  · rw [List.concat_eq_append] at hvl
    subst hvl
    have hpend : endIdx (u' ++ [p]) = p := by
      rw [endIdx_append_of_ne_nil u' [p] (by simp), endIdx_singleton]
    have hpmem : p ∈ u' ++ [p] := by simp
    have hp_lt : p < a.max_size := hInv.mem_vl_lt hpmem
    have htail : a.valid_tail = p := by rw [hInv.vtail, hpend]
    have htne : a.valid_tail ≠ INVALID_INDEX := by
      rw [htail]
      exact Nat.ne_of_lt (lt_trans hp_lt hInv.ms_lt)
    rw [push_back, if_neg htne, htail]
    exact insert_after_full a (u' ++ [p]) p v hInv hp_lt (hInv.valid_of_mem_vl hpmem)

theorem push_front_full (a : QuickArray T) (vl : List Nat) (v : T) (hInv : Inv a vl []) :
    push_front a v = (a, Except.error ErrDefine.ArrayIsFull) := by
  have hfS := hInv.free_head_of_fl_nil rfl
  cases vl with
  | nil =>
    have hhS : a.valid_head = INVALID_INDEX := hInv.valid_head_of_vl_nil rfl
    rw [push_front, if_pos hhS]
    exact push_back_full a [] v hInv
  | cons v0 vs =>
    have hv0 : a.valid_head = v0 := hInv.valid_head_of_vl_cons rfl
    have hhne : a.valid_head ≠ INVALID_INDEX := by
      rw [hv0]
      exact Nat.ne_of_lt
        (lt_trans (hInv.mem_vl_lt (List.mem_cons_self _ _)) hInv.ms_lt)
    rw [push_front, if_neg hhne, consume_fail a hfS]
    simp

/-! ### Characterizing `init` and `new` -/

theorem foldl_updE_fields (l : List Nat) (f : Nat → QuickElement T → QuickElement T)
    (a : QuickArray T) :
    (l.foldl (fun s i => updE s i (f i)) a).max_size = a.max_size ∧
    (l.foldl (fun s i => updE s i (f i)) a).free_head = a.free_head ∧
    (l.foldl (fun s i => updE s i (f i)) a).valid_head = a.valid_head ∧
    (l.foldl (fun s i => updE s i (f i)) a).valid_tail = a.valid_tail ∧
    (l.foldl (fun s i => updE s i (f i)) a).valid_count = a.valid_count ∧
    (l.foldl (fun s i => updE s i (f i)) a).internal_vec.length
      = a.internal_vec.length := by
  induction l generalizing a with
  | nil => exact ⟨rfl, rfl, rfl, rfl, rfl, rfl⟩
  | cons i l ih =>
    simp only [List.foldl_cons]
    have := ih (updE a i (f i))
    simpa using this

theorem getE_foldl_updE (l : List Nat) (f : Nat → QuickElement T → QuickElement T)
    (a : QuickArray T) (hnd : l.Nodup)
    (hlt : ∀ i ∈ l, i < a.internal_vec.length) (j : Nat) :
    getE (l.foldl (fun s i => updE s i (f i)) a) j =
      if j ∈ l then f j (getE a j) else getE a j := by
  induction l generalizing a with
  | nil => simp
  | cons i l ih =>
    simp only [List.foldl_cons]
    obtain ⟨hnd1, hnd2⟩ := List.nodup_cons.mp hnd
    have hbound : ∀ x ∈ l, x < (updE a i (f i)).internal_vec.length := by
      intro x hx
      rw [updE_length]
      exact hlt x (List.mem_cons_of_mem _ hx)
    rw [ih (updE a i (f i)) hnd2 hbound]
    by_cases hjl : j ∈ l
    · have hji : j ≠ i := fun hh => hnd1 (hh ▸ hjl)
      rw [if_pos hjl, if_pos (List.mem_cons_of_mem _ hjl), getE_updE_ne _ _ _ _ hji]
    · rw [if_neg hjl]
      by_cases hji : j = i
      · subst hji
        rw [if_pos (List.mem_cons_self _ _),
          getE_updE_self _ _ _ (hlt j (List.mem_cons_self _ _))]
      · rw [if_neg (by simp [hji, hjl]), getE_updE_ne _ _ _ _ hji]

/-- Building an ascending `next`-chain from a pointwise description. -/
theorem chain_range'_aux (a : QuickArray T) (e : Nat) :
    ∀ n s, (∀ i, s ≤ i → i < s + n + 1 →
        (getE a i).next = if i = s + n then e else i + 1) →
      chain a s (List.range' s (n + 1)) e = true := by
  intro n
  induction n with
  | zero =>
    intro s h
    have hs : (getE a s).next = e := by
      have := h s (le_refl s) (by omega)
      simpa using this
    simp [List.range', chain, hs]
  | succ k ih =>
    intro s h
    rw [show List.range' s (k + 1 + 1) = s :: List.range' (s + 1) (k + 1) from rfl,
      chain_cons_iff]
    refine ⟨rfl, ?_⟩
    have hs : (getE a s).next = s + 1 := by
      have := h s (le_refl s) (by omega)
      rw [if_neg (by omega)] at this
      exact this
    rw [hs]
    refine ih (s + 1) ?_
    intro i hi1 hi2
    have := h i (by omega) (by omega)
    rw [this]
    by_cases hie : i = s + 1 + k
    · rw [if_pos hie, if_pos (by omega)]
    · rw [if_neg hie, if_neg (by omega)]

/-- What `init` does on any state with coherent vector length and at least one
slot: it returns successfully, touches nothing but `pre`/`next`/`cur` of every
slot, and chains all slots in ascending order. -/
theorem init_spec (a : QuickArray T) (hms : 1 ≤ a.max_size)
    (hlen : a.internal_vec.length = a.max_size) :
    ∃ a', init a = some a' ∧
      a'.max_size = a.max_size ∧ a'.free_head = a.free_head ∧
      a'.valid_head = a.valid_head ∧ a'.valid_tail = a.valid_tail ∧
      a'.valid_count = a.valid_count ∧
      a'.internal_vec.length = a.internal_vec.length ∧
      (∀ i, i < a.max_size → getE a' i =
        { getE a i with
          pre := if i = 0 then INVALID_INDEX else i - 1,
          next := if i = a.max_size - 1 then INVALID_INDEX else i + 1,
          cur := i }) := by
  by_cases h1 : a.max_size = 1
  · have hstep : init a = some (updE a 0
        (fun e => { e with pre := INVALID_INDEX, next := INVALID_INDEX, cur := 0 })) := by
      rw [init, if_pos h1]
    refine ⟨_, hstep, rfl, rfl, rfl, rfl, rfl, by simp, ?_⟩
    intro i hi
    have hi0 : i = 0 := by omega
    subst hi0
    rw [getE_updE_self _ _ _ (by rw [hlen]; omega)]
    rw [h1]
    simp
  · have h2 : 2 ≤ a.max_size := by omega
    refine ⟨_, by rw [init, if_neg h1, if_neg (by omega)], ?_⟩
    obtain ⟨hf1, hf2, hf3, hf4, hf5, hf6⟩ := foldl_updE_fields
      (List.range' 1 (a.max_size - 2))
      (fun i => (fun e => { e with pre := i - 1, next := i + 1, cur := i })) a
    have hlen' : ∀ b : QuickArray T, b.internal_vec.length = a.max_size →
        ∀ x, x < a.max_size → x < b.internal_vec.length := by
      intro b hb x hx
      rw [hb]
      exact hx
    have hlenF : ((List.range' 1 (a.max_size - 2)).foldl
        (fun s i => updE s i (fun e => { e with pre := i - 1, next := i + 1, cur := i }))
          a).internal_vec.length = a.max_size := by
      rw [hf6, hlen]
    refine ⟨by simp [hf1], by simp [hf2], by simp [hf3], by simp [hf4],
      by simp [hf5], by simp [hf6], ?_⟩
    intro i hi
    have hgF : ∀ j, getE ((List.range' 1 (a.max_size - 2)).foldl
        (fun s i => updE s i (fun e => { e with pre := i - 1, next := i + 1, cur := i }))
          a) j = if j ∈ List.range' 1 (a.max_size - 2)
            then { getE a j with pre := j - 1, next := j + 1, cur := j }
            else getE a j := by
      intro j
      exact getE_foldl_updE _ _ a (List.nodup_range' ..)
        (fun x hx => by
          rw [hlen]
          have := List.mem_range'_1.mp hx
          omega) j
    by_cases hi1 : i = a.max_size - 1
    · subst hi1
      rw [getE_updE_self _ _ _ (by rw [updE_length]; rw [hlenF]; omega)]
      rw [getE_updE_ne _ _ _ _ (by omega)]
      rw [hgF, if_neg (by
        intro hmem
        have := List.mem_range'_1.mp hmem
        omega)]
      rw [if_neg (by omega), if_pos rfl]
      have hsub : a.max_size - 1 - 1 = a.max_size - 2 := by omega
      rw [hsub]
    · rw [getE_updE_ne _ _ _ _ hi1]
      by_cases hi0 : i = 0
      · subst hi0
        rw [getE_updE_self _ _ _ (by rw [hlenF]; omega)]
        rw [hgF, if_neg (by
          intro hmem
          have := List.mem_range'_1.mp hmem
          omega)]
        rw [if_pos rfl, if_neg (by omega)]
      · rw [getE_updE_ne _ _ _ _ hi0]
        rw [hgF, if_pos (List.mem_range'_1.mpr (by omega))]
        rw [if_neg hi0, if_neg hi1]

/-- `new c` for a sensible capacity: returns a well-formed empty arena whose
free list is `0, 1, …, c-1` in order. -/
theorem new_spec (c : Nat) (h1 : 1 ≤ c) (h2 : c < INVALID_INDEX) :
    ∃ a : QuickArray T, new c = some a ∧ Inv a [] (List.range c) ∧ PreOk a [] ∧
      a.max_size = c ∧ a.valid_count = 0 ∧
      a.valid_head = INVALID_INDEX ∧ a.valid_tail = INVALID_INDEX ∧
      a.free_head = 0 ∧
      (∀ i, i < c → (getE a i).valid = false) := by
  obtain ⟨a, hinit, hg1, hg2, hg3, hg4, hg5, hg6, hg7⟩ := init_spec
    ({ max_size := c, free_head := 0, valid_head := INVALID_INDEX,
       valid_tail := INVALID_INDEX, valid_count := 0,
       internal_vec := List.replicate c default } : QuickArray T)
    h1 (by simp)
  have hmsa : a.max_size = c := hg1
  have hfh : a.free_head = 0 := hg2
  have hvh : a.valid_head = INVALID_INDEX := hg3
  have hvt : a.valid_tail = INVALID_INDEX := hg4
  have hvc : a.valid_count = 0 := hg5
  have hlena : a.internal_vec.length = c := by
    rw [hg6]
    simp
  have hnew : new c = some a := by
    rw [new, if_pos h2]
    exact hinit
  have hslot : ∀ i, i < c → getE a i =
      { (default : QuickElement T) with
        pre := if i = 0 then INVALID_INDEX else i - 1,
        next := if i = c - 1 then INVALID_INDEX else i + 1,
        cur := i } := by
    intro i hi
    have hstep := hg7 i hi
    rw [hstep]
    have hd : getE ({ max_size := c, free_head := 0, valid_head := INVALID_INDEX, valid_tail := INVALID_INDEX, valid_count := 0, internal_vec := List.replicate c default } : QuickArray T) i = default := by
      show (List.replicate c (default : QuickElement T)).getD i default = default
      rw [List.getD_eq_getElem?_getD, List.getElem?_replicate, if_pos hi]
      rfl
    rw [hd]
  have hvalid : ∀ i, i < c → (getE a i).valid = false := by
    intro i hi
    rw [hslot i hi]
    rfl
  refine ⟨a, hnew, ?_, ?_, hmsa, hvc, hvh, hvt, hfh, hvalid⟩
  · refine ⟨?_, ?_, ?_, ?_, ?_, ?_, ?_, ?_, ?_⟩
    · rw [hlena, hmsa]
    · rw [hmsa]; exact h2
    · rw [hvc]; rfl
    · rw [hvh]
      simp [chain_nil]
    · rw [hvt]; rfl
    · rw [hfh]
      rw [List.range_eq_range']
      have hc : c = (c - 1) + 1 := by omega
      rw [show List.range' 0 c = List.range' 0 ((c - 1) + 1) by rw [← hc]]
      refine chain_range'_aux a INVALID_INDEX (c - 1) 0 ?_
      intro i hi1 hi2
      rw [hslot i (by omega)]
      show (if i = c - 1 then INVALID_INDEX else i + 1)
        = if i = 0 + (c - 1) then INVALID_INDEX else i + 1
      congr 1
      simp
    · intro i hi
      rw [hmsa] at hi
      rw [hslot i hi]
    · intro i hi
      rw [hmsa] at hi
      rw [hvalid i hi]
      simp
    · rw [hmsa]
      simp
  · constructor
    · rfl
    · intro hne
      rw [hfh]
      rw [hslot 0 (by omega)]
      rfl

/-! ### The iterator on a well-formed valid list -/

theorem enumerateAux_oob (a : QuickArray T) (h fuel : Nat) (hh : a.max_size ≤ h) :
    enumerateAux a h fuel = [] := by
  cases fuel with
  | zero => rfl
  | succ f =>
    simp [enumerateAux, iterNext, get_element, hh]

theorem enumerateAux_spec (a : QuickArray T) (l : List Nat) :
    ∀ (h fuel : Nat), a.max_size < INVALID_INDEX →
      chain a h l INVALID_INDEX = true →
      (∀ i ∈ l, i < a.max_size ∧ (getE a i).valid = true) →
      l.length ≤ fuel →
      enumerateAux a h fuel = l.map (fun i => (i, (getE a i).data)) := by
  induction l with
  | nil =>
    intro h fuel hms hchain _ _
    rw [chain_nil, beq_iff_eq] at hchain
    subst hchain
    exact enumerateAux_oob a INVALID_INDEX fuel (le_of_lt hms)
  | cons i l ih =>
    intro h fuel hms hchain hmem hfuel
    have hh : h = i := ((chain_cons_iff _ _ _ _ _).mp hchain).1
    have hrest := ((chain_cons_iff _ _ _ _ _).mp hchain).2
    rw [hh]
    obtain ⟨hi_lt, hi_v⟩ := hmem i (List.mem_cons_self _ _)
    obtain ⟨f, rfl⟩ : ∃ f, fuel = f + 1 := by
      cases fuel with
      | zero => simp at hfuel
      | succ f => exact ⟨f, rfl⟩
    have hel : get_element a i = some (getE a i).data := by
      rw [get_element, if_neg (by omega)]
      simp [hi_v]
    cases l with
    | nil =>
      have hnext : (getE a i).next = INVALID_INDEX := by
        rw [chain_nil, beq_iff_eq] at hrest
        exact hrest
      have hni : get_next_index a i = none := by
        rw [get_next_index, if_neg (by omega)]
        simp [hi_v, hnext]
      have hstep : enumerateAux a i (f + 1)
          = (i, (getE a i).data) :: enumerateAux a INVALID_INDEX f := by
        show (match iterNext a i with
          | none => []
          | some (item, cursor) => item :: enumerateAux a cursor f) = _
        rw [show iterNext a i = some ((i, (getE a i).data), INVALID_INDEX) by
          simp [iterNext, hel, hni]]
      rw [hstep, enumerateAux_oob a INVALID_INDEX f (le_of_lt hms)]
      simp
    | cons j l2 =>
      have hnext : (getE a i).next = j := ((chain_cons_iff _ _ _ _ _).mp hrest).1
      rw [hnext] at hrest
      have hj_lt : j < a.max_size := (hmem j (by simp)).1
      have hni : get_next_index a i = some j := by
        rw [get_next_index, if_neg (by omega)]
        have hjne : (j == INVALID_INDEX) = false := by
          simp
          exact Nat.ne_of_lt (lt_trans hj_lt hms)
        simp [hi_v, hnext, hjne]
      have hstep : enumerateAux a i (f + 1)
          = (i, (getE a i).data) :: enumerateAux a j f := by
        show (match iterNext a i with
          | none => []
          | some (item, cursor) => item :: enumerateAux a cursor f) = _
        rw [show iterNext a i = some ((i, (getE a i).data), j) by
          simp [iterNext, hel, hni]]
      rw [hstep, ih j f hms hrest (fun x hx => hmem x (List.mem_cons_of_mem _ hx))
        (by simp only [List.length_cons] at hfuel ⊢; omega)]
      simp

/-- On a well-formed arena the iterator yields exactly the valid list, each
index paired with its stored value. -/
theorem enumerate_spec (a : QuickArray T) (vl fl : List Nat) (hInv : Inv a vl fl) :
    enumerate a = vl.map (fun i => (i, (getE a i).data)) := by
  rw [enumerate]
  refine enumerateAux_spec a vl a.valid_head (a.max_size + 1) hInv.ms_lt hInv.vchain
    (fun i hi => ⟨hInv.mem_vl_lt hi, hInv.valid_of_mem_vl hi⟩) ?_
  have := hInv.length_add
  omega

/-! ### Folds of repeated pushes -/

def pushBackAll (a : QuickArray T) (ws : List T) : QuickArray T :=
  ws.foldl (fun s w => (push_back s w).1) a

def pushFrontAll (a : QuickArray T) (ws : List T) : QuickArray T :=
  ws.foldl (fun s w => (push_front s w).1) a

/-- Whether a sequence of `push_back` calls all return `Ok`. -/
def pushBackAllOk (a : QuickArray T) : List T → Bool
  | [] => true
  | w :: ws =>
    match push_back a w with
    | (a', Except.ok _) => pushBackAllOk a' ws
    | (_, Except.error _) => false

theorem pushBackAll_spec (ws : List T) :
    ∀ (a : QuickArray T) (vl fl : List Nat), Inv a vl fl → ws.length ≤ fl.length →
      ∃ a' vl' fl', pushBackAll a ws = a' ∧ Inv a' vl' fl' ∧
        pushBackAllOk a ws = true ∧
        a'.max_size = a.max_size ∧
        vl'.map (fun i => (getE a' i).data) = vl.map (fun i => (getE a i).data) ++ ws := by
  induction ws with
  | nil =>
    intro a vl fl hInv _
    exact ⟨a, vl, fl, rfl, hInv, rfl, rfl, by simp⟩
  | cons w ws ih =>
    intro a vl fl hInv hlen
    obtain ⟨i, fl', rfl⟩ : ∃ i fl', fl = i :: fl' := by
      cases fl with
      | nil => simp at hlen
      | cons i fl' => exact ⟨i, fl', rfl⟩
    obtain ⟨a1, hA, hI1, hms1, hvc1, hdi, hdo, _⟩ := push_back_ok a vl fl' i w hInv
    obtain ⟨a', vl', fl'', h1, h2, h3, h4, h5⟩ := ih a1 (vl ++ [i]) fl' hI1
      (by simp only [List.length_cons] at hlen; omega)
    refine ⟨a', vl', fl'', ?_, h2, ?_, by rw [h4, hms1], ?_⟩
    · show (ws.foldl (fun s w => (push_back s w).1) ((push_back a w).1)) = a'
      rw [hA]
      exact h1
    · show pushBackAllOk a (w :: ws) = true
      rw [pushBackAllOk, hA]
      exact h3
    · rw [h5]
      have htail : vl.map (fun j => (getE a1 j).data)
          = vl.map (fun j => (getE a j).data) := by
        refine List.map_congr_left ?_
        intro j hj
        have hji : j ≠ i := fun hh => hInv.disjoint hj (hh ▸ List.mem_cons_self _ _)
        exact hdo j hji (hInv.mem_vl_lt hj)
      have hmap : (vl ++ [i]).map (fun j => (getE a1 j).data)
          = vl.map (fun j => (getE a j).data) ++ [w] := by
        rw [List.map_append, htail, List.map_singleton, hdi]
      rw [hmap]
      simp

theorem pushFrontAll_spec (ws : List T) :
    ∀ (a : QuickArray T) (vl fl : List Nat), Inv a vl fl → ws.length ≤ fl.length →
      ∃ a' vl' fl', pushFrontAll a ws = a' ∧ Inv a' vl' fl' ∧
        a'.max_size = a.max_size ∧
        vl'.map (fun i => (getE a' i).data)
          = ws.reverse ++ vl.map (fun i => (getE a i).data) := by
  induction ws with
  | nil =>
    intro a vl fl hInv _
    exact ⟨a, vl, fl, rfl, hInv, rfl, by simp⟩
  | cons w ws ih =>
    intro a vl fl hInv hlen
    obtain ⟨i, fl', rfl⟩ : ∃ i fl', fl = i :: fl' := by
      cases fl with
      | nil => simp at hlen
      | cons i fl' => exact ⟨i, fl', rfl⟩
    obtain ⟨a1, hA, hI1, hms1, hvc1, hdi, hdo, _⟩ := push_front_ok a vl fl' i w hInv
    obtain ⟨a', vl', fl'', h1, h2, h3, h4⟩ := ih a1 (i :: vl) fl' hI1
      (by simp only [List.length_cons] at hlen; omega)
    refine ⟨a', vl', fl'', ?_, h2, by rw [h3, hms1], ?_⟩
    · show (ws.foldl (fun s w => (push_front s w).1) ((push_front a w).1)) = a'
      rw [hA]
      exact h1
    · rw [h4]
      have htail : vl.map (fun j => (getE a1 j).data)
          = vl.map (fun j => (getE a j).data) := by
        refine List.map_congr_left ?_
        intro j hj
        have hji : j ≠ i := fun hh => hInv.disjoint hj (hh ▸ List.mem_cons_self _ _)
        exact hdo j hji (hInv.mem_vl_lt hj)
      have hmap : (i :: vl).map (fun j => (getE a1 j).data)
          = w :: vl.map (fun j => (getE a j).data) := by
        rw [List.map_cons, htail, hdi]
      rw [hmap]
      simp

/-! ### Growth -/

theorem length_updL (v : List (QuickElement T)) (i : Nat)
    (f : QuickElement T → QuickElement T) : (updL v i f).length = v.length := by
  simp [updL]

theorem getD_updL_self (v : List (QuickElement T)) (i : Nat)
    (f : QuickElement T → QuickElement T) (h : i < v.length) :
    (updL v i f).getD i default = f (v.getD i default) := by
  simp [updL, List.getD_eq_getElem?_getD, List.getElem?_set_self h]

theorem getD_updL_self_of_eq (v : List (QuickElement T)) (i j : Nat)
    (f : QuickElement T → QuickElement T) (hij : i = j) (h : j < v.length) :
    (updL v j f).getD i default = f (v.getD j default) := by
  subst hij
  exact getD_updL_self v i f h

theorem getD_updL_ne (v : List (QuickElement T)) (i j : Nat)
    (f : QuickElement T → QuickElement T) (h : j ≠ i) :
    (updL v i f).getD j default = v.getD j default := by
  simp [updL, List.getD_eq_getElem?_getD, List.getElem?_set_ne (Ne.symm h)]

theorem length_foldl_updL (l : List Nat) (f : Nat → QuickElement T → QuickElement T)
    (v : List (QuickElement T)) :
    (l.foldl (fun v i => updL v i (f i)) v).length = v.length := by
  induction l generalizing v with
  | nil => rfl
  | cons i l ih => simp only [List.foldl_cons, ih, length_updL]

theorem getD_foldl_updL (l : List Nat) (f : Nat → QuickElement T → QuickElement T)
    (v : List (QuickElement T)) (hnd : l.Nodup)
    (hlt : ∀ i ∈ l, i < v.length) (j : Nat) :
    (l.foldl (fun v i => updL v i (f i)) v).getD j default =
      if j ∈ l then f j (v.getD j default) else v.getD j default := by
  induction l generalizing v with
  | nil => simp
  | cons i l ih =>
    simp only [List.foldl_cons]
    obtain ⟨hnd1, hnd2⟩ := List.nodup_cons.mp hnd
    have hbound : ∀ x ∈ l, x < (updL v i (f i)).length := by
      intro x hx
      rw [length_updL]
      exact hlt x (List.mem_cons_of_mem _ hx)
    rw [ih (updL v i (f i)) hnd2 hbound]
    by_cases hjl : j ∈ l
    · have hji : j ≠ i := fun hh => hnd1 (hh ▸ hjl)
      rw [if_pos hjl, if_pos (List.mem_cons_of_mem _ hjl), getD_updL_ne _ _ _ _ hji]
    · rw [if_neg hjl]
      by_cases hji : j = i
      · subst hji
        rw [if_pos (List.mem_cons_self _ _),
          getD_updL_self _ _ _ (hlt j (List.mem_cons_self _ _))]
      · rw [if_neg (by simp [hji, hjl]), getD_updL_ne _ _ _ _ hji]

theorem perm_shuffle (A B C : List Nat) : (A ++ (B ++ C)).Perm ((A ++ C) ++ B) := by
  rw [List.perm_iff_count]
  intro x
  simp only [List.count_append]
  omega

/-- `(replicate n default).getD j default = default`, in and out of range. -/
theorem getD_replicate_default (n j : Nat) :
    (List.replicate n (default : QuickElement T)).getD j default = default := by
  rw [List.getD_eq_getElem?_getD, List.getElem?_replicate]
  by_cases h : j < n
  · rw [if_pos h]
    rfl
  · rw [if_neg h]
    rfl

/-- Success specification of `expand_to`: old slots are copied verbatim, the
new slots `max_size, …, n-1` are chained ascending and prepended to the old
free list, and nothing else changes. -/
theorem expand_spec (a : QuickArray T) (vl fl : List Nat) (n : Nat)
    (hInv : Inv a vl fl) (h1 : a.max_size < n) (h2 : n < INVALID_INDEX) :
    ∃ a', expand_to a n = (a', Except.ok ()) ∧
      Inv a' vl (List.range' a.max_size (n - a.max_size) ++ fl) ∧
      a'.max_size = n ∧
      a'.valid_head = a.valid_head ∧ a'.valid_tail = a.valid_tail ∧
      a'.valid_count = a.valid_count ∧
      (∀ i, i < a.max_size → getE a' i = getE a i) ∧
      enumerate a' = enumerate a := by
  have hcond : ¬(n ≤ a.max_size ∨ INVALID_INDEX ≤ n) := by omega
  have hlenF1 : ((List.range a.max_size).foldl
      (fun v i => updL v i (fun _ => getE a i))
      (List.replicate n (default : QuickElement T))).length = n := by
    rw [length_foldl_updL]
    simp
  have hF1 : ∀ j, ((List.range a.max_size).foldl
      (fun v i => updL v i (fun _ => getE a i))
      (List.replicate n (default : QuickElement T))).getD j default =
        if j < a.max_size then getE a j else default := by
    intro j
    rw [getD_foldl_updL _ _ _ (List.nodup_range _)
      (fun x hx => by
        rw [List.length_replicate]
        exact lt_trans (List.mem_range.mp hx) h1) j]
    rw [getD_replicate_default]
    by_cases hj : j < a.max_size
    · rw [if_pos (List.mem_range.mpr hj), if_pos hj]
    · rw [if_neg (fun hh => hj (List.mem_range.mp hh)), if_neg hj]
  have hlenF2 : ((List.range' (a.max_size + 1) (n - 1 - (a.max_size + 1))).foldl
      (fun v i => updL v i (fun e => { e with pre := i - 1, next := i + 1, cur := i }))
      ((List.range a.max_size).foldl
        (fun v i => updL v i (fun _ => getE a i))
        (List.replicate n (default : QuickElement T)))).length = n := by
    rw [length_foldl_updL, hlenF1]
  have hF2 : ∀ j, ((List.range' (a.max_size + 1) (n - 1 - (a.max_size + 1))).foldl
      (fun v i => updL v i (fun e => { e with pre := i - 1, next := i + 1, cur := i }))
      ((List.range a.max_size).foldl
        (fun v i => updL v i (fun _ => getE a i))
        (List.replicate n (default : QuickElement T)))).getD j default =
        if a.max_size + 1 ≤ j ∧ j < n - 1 then
          { (if j < a.max_size then getE a j else default) with
            pre := j - 1, next := j + 1, cur := j }
        else (if j < a.max_size then getE a j else default) := by
    intro j
    rw [getD_foldl_updL _ _ _ (List.nodup_range' ..)
      (fun x hx => by
        rw [hlenF1]
        have := List.mem_range'_1.mp hx
        omega) j]
    rw [hF1 j]
    by_cases hj : a.max_size + 1 ≤ j ∧ j < n - 1
    · rw [if_pos (List.mem_range'_1.mpr (by omega)), if_pos hj]
    · rw [if_neg (fun hh => hj (by
        have := List.mem_range'_1.mp hh
        omega)), if_neg hj]
  have hvlen : (expandVec a n).length = n := by
    simp only [expandVec]
    rw [length_updL, length_updL, hlenF2]
  have hold : ∀ i, i < a.max_size → (expandVec a n).getD i default = getE a i := by
    intro i hi
    simp only [expandVec]
    rw [getD_updL_ne _ _ _ _ (by omega), getD_updL_ne _ _ _ _ (by omega), hF2 i,
      if_neg (by omega), if_pos hi]
  have hnewc : ∀ i, a.max_size ≤ i → i < n →
      ((expandVec a n).getD i default).valid = false ∧
      ((expandVec a n).getD i default).cur = i ∧
      ((expandVec a n).getD i default).next
        = (if i = n - 1 then a.free_head else i + 1) := by
    intro i hi1 hi2
    simp only [expandVec]
    by_cases hin : i = n - 1
    · subst hin
      rw [getD_updL_self _ _ _ (by simp [length_updL, length_foldl_updL]; omega)]
      rw [if_pos rfl]
      by_cases him : n - 1 = a.max_size
      · rw [getD_updL_self_of_eq _ _ _ _ him (by simp [length_foldl_updL]; omega),
          hF2 a.max_size, if_neg (by omega), if_neg (by omega)]
        exact ⟨rfl, rfl, rfl⟩
      · rw [getD_updL_ne _ _ _ _ him, hF2 (n - 1), if_neg (by omega),
          if_neg (by omega)]
        exact ⟨rfl, rfl, rfl⟩
    · rw [getD_updL_ne _ _ _ _ hin, if_neg hin]
      by_cases him : i = a.max_size
      · subst him
        rw [getD_updL_self _ _ _ (by simp [length_foldl_updL]; omega), hF2 a.max_size,
          if_neg (by omega), if_neg (by omega)]
        exact ⟨rfl, rfl, rfl⟩
      · rw [getD_updL_ne _ _ _ _ him, hF2 i, if_pos (by omega), if_neg (by omega)]
        exact ⟨rfl, rfl, rfl⟩
  have hstep : expand_to a n =
      ({ a with internal_vec := expandVec a n, free_head := a.max_size, max_size := n }, Except.ok ()) := by
    rw [expand_to, if_neg hcond]
  have holdE : ∀ i, i < a.max_size →
      getE ({ a with internal_vec := expandVec a n, free_head := a.max_size, max_size := n } : QuickArray T) i = getE a i := hold
  have hnewE : ∀ i, a.max_size ≤ i → i < n →
      (getE ({ a with internal_vec := expandVec a n, free_head := a.max_size, max_size := n } : QuickArray T) i).valid = false ∧
      (getE ({ a with internal_vec := expandVec a n, free_head := a.max_size, max_size := n } : QuickArray T) i).cur = i ∧
      (getE ({ a with internal_vec := expandVec a n, free_head := a.max_size, max_size := n } : QuickArray T) i).next
        = (if i = n - 1 then a.free_head else i + 1) := hnewc
  have hInvA : Inv ({ a with internal_vec := expandVec a n, free_head := a.max_size, max_size := n } : QuickArray T) vl
      (List.range' a.max_size (n - a.max_size) ++ fl) := by
    refine ⟨?_, ?_, ?_, ?_, ?_, ?_, ?_, ?_, ?_⟩
    · exact hvlen
    · exact h2
    · exact hInv.count
    · rw [show ({ a with internal_vec := expandVec a n, free_head := a.max_size, max_size := n } : QuickArray T).valid_head = a.valid_head from rfl]
      rw [chain_congr _ a _ _ vl ?_]
      · exact hInv.vchain
      · intro x hx
        rw [holdE x (hInv.mem_vl_lt hx)]
    · exact hInv.vtail
    · rw [show ({ a with internal_vec := expandVec a n, free_head := a.max_size, max_size := n } : QuickArray T).free_head = a.max_size from rfl]
      rw [chain_append_iff]
      refine ⟨a.free_head, ?_, ?_⟩
      · have hk : n - a.max_size = (n - a.max_size - 1) + 1 := by omega
        rw [hk]
        refine chain_range'_aux _ a.free_head (n - a.max_size - 1) a.max_size ?_
        intro i hi1 hi2
        have hi2n : i < n := by omega
        have harith : a.max_size + (n - a.max_size - 1) = n - 1 := by omega
        rw [(hnewE i hi1 hi2n).2.2, harith]
      · rw [chain_congr _ a _ _ fl ?_]
        · exact hInv.fchain
        · intro x hx
          rw [holdE x (hInv.mem_fl_lt hx)]
    · intro i hi
      by_cases him : i < a.max_size
      · rw [holdE i him]
        exact hInv.curEq i him
      · exact (hnewE i (by omega) hi).2.1
    · intro i hi
      by_cases him : i < a.max_size
      · rw [holdE i him]
        exact hInv.validIff i him
      · rw [(hnewE i (by omega) hi).1]
        constructor
        · intro hh
          exact absurd hh (by simp)
        · intro hh
          exact absurd (hInv.mem_vl_lt hh) (by omega)
    · have hsplit : List.range a.max_size ++ List.range' a.max_size (n - a.max_size)
          = List.range n := by
        rw [List.range_eq_range', List.range_eq_range']
        have hr := List.range'_append_1 0 a.max_size (n - a.max_size)
        rw [Nat.zero_add] at hr
        rw [hr]
        congr 1
        omega
      refine (perm_shuffle vl (List.range' a.max_size (n - a.max_size)) fl).trans ?_
      refine ((hInv.perm.append_right (List.range' a.max_size (n - a.max_size))).trans ?_)
      rw [hsplit]
  refine ⟨_, hstep, hInvA, rfl, rfl, rfl, rfl, holdE, ?_⟩
  rw [enumerate_spec _ vl (List.range' a.max_size (n - a.max_size) ++ fl) hInvA,
    enumerate_spec a vl fl hInv]
  refine List.map_congr_left ?_
  intro j hj
  rw [holdE j (hInv.mem_vl_lt hj)]


/-! ### Insertion operations as data

Statements over "every sequence of insertions" quantify over lists of these
operations; `applyIns` dispatches to the four insertion entry points of the
API. -/

/-- One insertion call with its payload. -/
inductive InsOp (T : Type) where
  | pushBack (v : T)
  | pushFront (v : T)
  | insertBefore (t : Nat) (v : T)
  | insertAfter (t : Nat) (v : T)

/-- The value an insertion operation carries. -/
def insVal : InsOp T → T
  | .pushBack v => v
  | .pushFront v => v
  | .insertBefore _ v => v
  | .insertAfter _ v => v

/-- Run one insertion operation. -/
def applyIns (a : QuickArray T) : InsOp T → QuickArray T × Except ErrDefine Nat
  | .pushBack v => push_back a v
  | .pushFront v => push_front a v
  | .insertBefore t v => insert_before a t v
  | .insertAfter t v => insert_after a t v

/-- Run a sequence of insertion operations, keeping each resulting state (a
caller that ignores each call's `Result`). -/
def runIns (a : QuickArray T) : List (InsOp T) → QuickArray T
  | [] => a
  | op :: ops => runIns (applyIns a op).1 ops

/-- Case analysis of one insertion on a well-formed state: either it fails
and hands back the state unchanged, or it pops the free head `i` and the
result is again well-formed with `i` on the valid list carrying the inserted
value. -/
theorem applyIns_cases (a : QuickArray T) (vl fl : List Nat) (op : InsOp T)
    (hInv : Inv a vl fl) (hp : PreOk a vl) :
    (∃ e, applyIns a op = (a, Except.error e)) ∨
    (∃ a' i fl' vl', applyIns a op = (a', Except.ok i) ∧ fl = i :: fl' ∧
      Inv a' vl' fl' ∧ PreOk a' vl' ∧ i ∈ vl' ∧
      a'.max_size = a.max_size ∧ (getE a' i).data = insVal op) := by
  cases op with
  | pushBack v =>
    cases fl with
    | nil => exact Or.inl ⟨_, push_back_full a vl v hInv⟩
    | cons i fl' =>
      obtain ⟨a', hA, hI, hms, _, hdi, _, hpre⟩ := push_back_ok a vl fl' i v hInv
      exact Or.inr ⟨a', i, fl', vl ++ [i], hA, rfl, hI, hpre hp, by simp, hms, hdi⟩
  | pushFront v =>
    cases fl with
    | nil => exact Or.inl ⟨_, push_front_full a vl v hInv⟩
    | cons i fl' =>
      obtain ⟨a', hA, hI, hms, _, hdi, _, hpre⟩ := push_front_ok a vl fl' i v hInv
      exact Or.inr ⟨a', i, fl', i :: vl, hA, rfl, hI, hpre hp, by simp, hms, hdi⟩
  | insertBefore t v =>
    by_cases ht : a.max_size ≤ t
    · exact Or.inl ⟨_, insert_before_oob a t v ht⟩
    · push_neg at ht
      by_cases htv : (getE a t).valid = true
      · have htm : t ∈ vl := (hInv.validIff t ht).mp htv
        obtain ⟨u, w, rfl⟩ := List.append_of_mem htm
        cases fl with
        | nil => exact Or.inl ⟨_, insert_before_full a _ t v hInv ht htv⟩
        | cons i fl' =>
          obtain ⟨a', hA, hI, hP, hms, _, hdi, _⟩ :=
            insert_before_ok a u w fl' t i v hInv hp
          exact Or.inr ⟨a', i, fl', u ++ i :: t :: w, hA, rfl, hI, hP, by simp, hms, hdi⟩
      · refine Or.inl ⟨_, insert_before_invalid a t v ht ?_⟩
        cases hb : (getE a t).valid
        · rfl
        · exact absurd hb htv
  | insertAfter t v =>
    by_cases ht : a.max_size ≤ t
    · exact Or.inl ⟨_, insert_after_oob a t v ht⟩
    · push_neg at ht
      by_cases htv : (getE a t).valid = true
      · have htm : t ∈ vl := (hInv.validIff t ht).mp htv
        obtain ⟨u, w, rfl⟩ := List.append_of_mem htm
        cases fl with
        | nil => exact Or.inl ⟨_, insert_after_full a _ t v hInv ht htv⟩
        | cons i fl' =>
          obtain ⟨a', hA, hI, hms, _, _, hdi, _, hpre⟩ :=
            insert_after_ok a u w fl' t i v hInv
          exact Or.inr ⟨a', i, fl', u ++ t :: i :: w, hA, rfl, hI, hpre hp, by simp, hms, hdi⟩
      · refine Or.inl ⟨_, insert_after_invalid a t v ht ?_⟩
        cases hb : (getE a t).valid
        · rfl
        · exact absurd hb htv

/-- The invariant survives any sequence of insertion attempts. -/
theorem runIns_wf (ops : List (InsOp T)) :
    ∀ (a : QuickArray T) (vl fl : List Nat), Inv a vl fl → PreOk a vl →
      ∃ vl' fl', Inv (runIns a ops) vl' fl' ∧ PreOk (runIns a ops) vl' := by
  induction ops with
  | nil =>
    intro a vl fl hInv hp
    exact ⟨vl, fl, hInv, hp⟩
  | cons op ops ih =>
    intro a vl fl hInv hp
    rcases applyIns_cases a vl fl op hInv hp with ⟨e, hE⟩ |
      ⟨a', i, fl', vl', hA, _, hI, hP, _, _, _⟩
    · have hstep : runIns a (op :: ops) = runIns a ops := by
        simp only [runIns, hE]
      rw [hstep]
      exact ih a vl fl hInv hp
    · have hstep : runIns a (op :: ops) = runIns a' ops := by
        simp only [runIns, hA]
      rw [hstep]
      exact ih a' vl' fl' hI hP

/-! ### Concrete executions (`T = Nat`) used by the claims below -/

/-- A capacity-2 arena that held the single value 5 (in slot 0) and was then
cleared. -/
def clearedArena : QuickArray Nat := (clear (push_back (newD 2) 5).1).getD default

/-- A full arena of capacity 1 holding the single value 7. -/
def fullOne : QuickArray Nat := (push_back (newD 1) 7).1

/-- The spec's growth example: capacity 5 after `push_front(1)` then
`push_front(2)`. -/
def growExample : QuickArray Nat := pushFrontAll (newD 5) [1, 2]

/-- One LRU step at capacity 3: pop the tail when full, then push the value
at the front (the `test_lru` pattern of src/src/lib.rs). -/
def lruStep (a : QuickArray Nat) (v : Nat) : QuickArray Nat :=
  let a1 := if is_full a then (pop_last a).1 else a
  (push_front a1 v).1

/-- The LRU state after feeding the values `1, …, v - 1` into a capacity-3
arena: the state just before value `v` is handled. -/
def lruState (v : Nat) : QuickArray Nat :=
  (List.range' 1 (v - 1)).foldl lruStep (newD 3)

/-- A full capacity-2 arena grown by exactly one slot and pushed once more:
`expand_to`'s two final writes both hit slot 2, leaving its `pre` at 1
instead of the sentinel, and `push_front` then makes slot 2 the valid list's
head without ever writing its `pre`. -/
def cornerArena : QuickArray Nat :=
  (push_front (expand_to (pushBackAll (newD 2) [10, 20]) 3).1 30).1

/-! ### The claims -/

/-- C1: falsified.  `clear()` resets `valid_count` to 0 but re-runs `init`,
which never clears the slots' occupancy flags, so after clearing a nonempty
arena `valid_count` (0) differs from the number of slots whose occupancy
flag is true (still 1). -/
theorem clear_count_occupancy_mismatch :
    get_valid_count clearedArena = 0 ∧ occupiedCount clearedArena = 1 := by
  decide

/-- C2: falsified.  After `clear()` the previously stored value is still
reachable: `get_element 0` returns `some 5`, because the slot's occupancy
flag survives `init` and `get_element` checks only that flag. -/
theorem clear_leaves_data_reachable :
    get_valid_count clearedArena = 0 ∧ get_element clearedArena 0 = some 5 := by
  decide

/-- C3: falsified.  `new(0)` does not coerce the capacity to 1: the Rust
coercion `let _max_size = 1;` binds a fresh shadowed variable that is
immediately dropped, the field stays 0, and `init` evaluates `max_size - 1`
on `u32` 0 (and writes out of bounds), a panic — modelled as `none`.  `new`
thus fails fatally for a capacity strictly below the sentinel. -/
theorem new_zero_fails : (new 0 : Option (QuickArray Nat)) = none := by
  rfl

/-- C4 (amended): over any sequence of insertion attempts from a well-formed
state, `get_valid_count` never exceeds `get_max_size`; on a full arena,
`push_back`, `push_front`, and `insert_before`/`insert_after` with an
in-range target return `ArrayIsFull` with the state unchanged, while
`insert_before`/`insert_after` with an out-of-range target return
`InvalidIndex` (the index check precedes the fullness check), also leaving
the state unchanged. -/
theorem capacity_bound_and_full_arena_error (a : QuickArray T) (vl fl : List Nat)
    (v : T) (hInv : Inv a vl fl) (hp : PreOk a vl) :
    (∀ ops : List (InsOp T),
      get_valid_count (runIns a ops) ≤ get_max_size (runIns a ops)) ∧
    (is_full a = true →
      push_back a v = (a, Except.error ErrDefine.ArrayIsFull) ∧
      push_front a v = (a, Except.error ErrDefine.ArrayIsFull) ∧
      (∀ t, t < get_max_size a →
        insert_before a t v = (a, Except.error ErrDefine.ArrayIsFull) ∧
        insert_after a t v = (a, Except.error ErrDefine.ArrayIsFull)) ∧
      (∀ t, get_max_size a ≤ t →
        insert_before a t v = (a, Except.error ErrDefine.InvalidIndex) ∧
        insert_after a t v = (a, Except.error ErrDefine.InvalidIndex))) := by
  constructor
  · intro ops
    obtain ⟨vl', fl', hI, _⟩ := runIns_wf ops a vl fl hInv hp
    exact hI.count_le
  · intro hfull
    have hc : a.valid_count = a.max_size := by
      simp only [is_full, beq_iff_eq] at hfull
      exact hfull
    have hfl : fl = [] := hInv.fl_nil_of_full hc
    subst hfl
    refine ⟨push_back_full a vl v hInv, push_front_full a vl v hInv, ?_, ?_⟩
    · intro t ht
      have htm : t ∈ vl := hInv.mem_vl_of_full hc ht
      have htv := hInv.valid_of_mem_vl htm
      exact ⟨insert_before_full a vl t v hInv ht htv,
        insert_after_full a vl t v hInv ht htv⟩
    · intro t ht
      exact ⟨insert_before_oob a t v ht, insert_after_oob a t v ht⟩

/-- Witness for C4's theorem at the concrete full arena `fullOne`. -/
theorem capacity_bound_and_full_arena_error_witness :
    (∀ ops : List (InsOp Nat),
      get_valid_count (runIns fullOne ops) ≤ get_max_size (runIns fullOne ops)) ∧
    (is_full fullOne = true →
      push_back fullOne 9 = (fullOne, Except.error ErrDefine.ArrayIsFull) ∧
      push_front fullOne 9 = (fullOne, Except.error ErrDefine.ArrayIsFull) ∧
      (∀ t, t < get_max_size fullOne →
        insert_before fullOne t 9 = (fullOne, Except.error ErrDefine.ArrayIsFull) ∧
        insert_after fullOne t 9 = (fullOne, Except.error ErrDefine.ArrayIsFull)) ∧
      (∀ t, get_max_size fullOne ≤ t →
        insert_before fullOne t 9 = (fullOne, Except.error ErrDefine.InvalidIndex) ∧
        insert_after fullOne t 9 = (fullOne, Except.error ErrDefine.InvalidIndex))) :=
  capacity_bound_and_full_arena_error fullOne [0] [] 9 (by decide) (by decide)

/-- C4, counterexample to the claim as stated: on a full arena an insertion
with an out-of-range target index reports `InvalidIndex`, not `ArrayIsFull`,
because the index check runs before the fullness check. -/
theorem full_arena_insert_invalid_index :
    is_full fullOne = true ∧
    insert_before fullOne 5 8 = (fullOne, Except.error ErrDefine.InvalidIndex) ∧
    insert_after fullOne 5 8 = (fullOne, Except.error ErrDefine.InvalidIndex) := by
  refine ⟨rfl, rfl, rfl⟩

/-- C5: from a fresh arena, a sequence of `push_back` calls that all fit
(they all succeed, `pushBackAllOk`) enumerates in insertion order, and a
sequence of `push_front` calls enumerates in reverse insertion order. -/
theorem push_order_preservation (c : Nat) (h1 : 1 ≤ c) (h2 : c < INVALID_INDEX)
    (ws : List T) (hlen : ws.length ≤ c) :
    pushBackAllOk (newD c : QuickArray T) ws = true ∧
    (enumerate (pushBackAll (newD c : QuickArray T) ws)).map Prod.snd = ws ∧
    (enumerate (pushFrontAll (newD c : QuickArray T) ws)).map Prod.snd = ws.reverse := by
  obtain ⟨a0, hnew, hI0, hP0, _, _, _, _, _, _⟩ := @new_spec T _ c h1 h2
  have ha0 : (newD c : QuickArray T) = a0 := by
    show (new c).getD default = a0
    rw [hnew]
    rfl
  rw [ha0]
  obtain ⟨ab, vlb, flb, hrunb, hIb, hokb, _, hmapb⟩ :=
    pushBackAll_spec ws a0 [] (List.range c) hI0 (by simpa using hlen)
  obtain ⟨af, vlf, flf, hrunf, hIf, _, hmapf⟩ :=
    pushFrontAll_spec ws a0 [] (List.range c) hI0 (by simpa using hlen)
  refine ⟨hokb, ?_, ?_⟩
  · rw [hrunb, enumerate_spec ab vlb flb hIb, List.map_map]
    have hcomp : (Prod.snd ∘ fun i => (i, (getE ab i).data))
        = fun i => (getE ab i).data := rfl
    rw [hcomp, hmapb]
    simp
  · rw [hrunf, enumerate_spec af vlf flf hIf, List.map_map]
    have hcomp : (Prod.snd ∘ fun i => (i, (getE af i).data))
        = fun i => (getE af i).data := rfl
    rw [hcomp, hmapf]
    simp

/-- Witness for C5's theorem at capacity 3 with the values `[4, 5, 6]`. -/
theorem push_order_preservation_witness :
    pushBackAllOk (newD 3 : QuickArray Nat) [4, 5, 6] = true ∧
    (enumerate (pushBackAll (newD 3 : QuickArray Nat) [4, 5, 6])).map Prod.snd
      = [4, 5, 6] ∧
    (enumerate (pushFrontAll (newD 3 : QuickArray Nat) [4, 5, 6])).map Prod.snd
      = [6, 5, 4] := by
  simpa using push_order_preservation 3 (by decide) (by decide) [4, 5, 6] (by decide)

/-- C6: a successful `expand_to` keeps every old slot verbatim (links, data,
occupancy), preserves `valid_head`, `valid_tail`, `valid_count` and the
`enumerate` sequence, sets the capacity to `n`, and leaves enough free slots
for insertions to succeed until the count reaches `n`. -/
theorem expand_preserves_content (a : QuickArray T) (vl fl : List Nat) (n : Nat)
    (hInv : Inv a vl fl) (h1 : get_max_size a < n) (h2 : n < INVALID_INDEX) :
    ∃ a', expand_to a n = (a', Except.ok ()) ∧
      (∀ i, i < get_max_size a → getE a' i = getE a i) ∧
      a'.valid_head = a.valid_head ∧ a'.valid_tail = a.valid_tail ∧
      get_valid_count a' = get_valid_count a ∧
      enumerate a' = enumerate a ∧
      get_max_size a' = n ∧
      (∀ ws : List T, ws.length + get_valid_count a' ≤ n →
        pushBackAllOk a' ws = true) := by
  obtain ⟨a', hstep, hI', hms', hvh', hvt', hvc', hkeep, henum⟩ :=
    expand_spec a vl fl n hInv h1 h2
  refine ⟨a', hstep, hkeep, hvh', hvt', hvc', henum, hms', ?_⟩
  intro ws hws
  have hws' : ws.length + a.valid_count ≤ n := by
    simp only [get_valid_count] at hws
    rw [hvc'] at hws
    exact hws
  have h1' : a.max_size < n := h1
  have hlen2 : ws.length ≤ (List.range' a.max_size (n - a.max_size) ++ fl).length := by
    have hla := hInv.length_add
    have hco := hInv.count
    simp only [List.length_append, List.length_range']
    omega
  obtain ⟨ab, vlb, flb, _, _, hok, _, _⟩ :=
    pushBackAll_spec ws a' vl (List.range' a.max_size (n - a.max_size) ++ fl) hI' hlen2
  exact hok

/-- Witness for C6's theorem at the spec's own example (capacity 5, values
`[1, 2]` via `push_front`, grown to 10). -/
theorem expand_preserves_content_witness :
    ∃ a', expand_to growExample 10 = (a', Except.ok ()) ∧
      (∀ i, i < get_max_size growExample → getE a' i = getE growExample i) ∧
      a'.valid_head = growExample.valid_head ∧
      a'.valid_tail = growExample.valid_tail ∧
      get_valid_count a' = get_valid_count growExample ∧
      enumerate a' = enumerate growExample ∧
      get_max_size a' = 10 ∧
      (∀ ws : List Nat, ws.length + get_valid_count a' ≤ 10 →
        pushBackAllOk a' ws = true) :=
  expand_preserves_content growExample [1, 0] [2, 3, 4] 10 (by decide) (by decide)
    (by decide)

/-- C7: the capacity-3 LRU round trip.  Feeding the values 1..10 through
`lruStep` (pop the tail when full, then `push_front`), the arena is full
before each of the steps handling the values 4..10, and its tail element is
then exactly the incoming value minus the capacity 3. -/
theorem lru_sliding_window :
    ∀ v ∈ List.range' 4 7,
      is_full (lruState v) = true ∧
      get_tail_element (lruState v) = some (v - 3) := by
  decide

/-- Witness for C7's theorem at the step handling the value 7. -/
theorem lru_sliding_window_witness :
    is_full (lruState 7) = true ∧ get_tail_element (lruState 7) = some 4 :=
  lru_sliding_window 7 (by decide)

/-- C8: `expand_to n` with `n` at most the current capacity or at least the
sentinel returns `ArraySizeError` and hands back the arena unchanged. -/
theorem expand_to_rejects (a : QuickArray T) (n : Nat)
    (h : n ≤ get_max_size a ∨ INVALID_INDEX ≤ n) :
    expand_to a n = (a, Except.error ErrDefine.ArraySizeError) := by
  have h' : n ≤ a.max_size ∨ INVALID_INDEX ≤ n := h
  rw [expand_to, if_pos h']

/-- Witness for C8's theorem: shrinking (or keeping) the capacity is
rejected. -/
theorem expand_to_rejects_witness :
    expand_to (newD 3 : QuickArray Nat) 3
      = (newD 3, Except.error ErrDefine.ArraySizeError) :=
  expand_to_rejects (newD 3) 3 (Or.inl (by decide))

/-- C9: falsified.  In the reachable state `cornerArena`, slot 2 is the valid
list's head (`enumerate` walks 2, 0, 1), yet `get_pre_index 2` returns
`some 1` instead of absent: `expand_to(capacity + 1)` writes slot 2 twice, so
the first write's sentinel `pre` is clobbered with `new_size - 2 = 1`, and
`push_front` never rewrites the consumed slot's `pre`. -/
theorem head_pre_index_not_absent :
    (enumerate cornerArena).map Prod.fst = [2, 0, 1] ∧
    get_head_index cornerArena = some 2 ∧
    get_pre_index cornerArena 2 = some 1 := by
  decide

/-- C10: on a well-formed state, an insertion that succeeds with index `i`
returns an in-range index whose slot immediately holds the inserted value. -/
theorem insert_returns_index_of_value (a : QuickArray T) (vl fl : List Nat)
    (op : InsOp T) (a' : QuickArray T) (i : Nat)
    (hInv : Inv a vl fl) (hp : PreOk a vl)
    (hrun : applyIns a op = (a', Except.ok i)) :
    i < get_max_size a' ∧ get_element a' i = some (insVal op) := by
  rcases applyIns_cases a vl fl op hInv hp with ⟨e, hE⟩ |
    ⟨a2, i2, fl', vl', hA, _, hI, _, him, _, hdata⟩
  · rw [hrun] at hE
    have := congrArg Prod.snd hE
    simp at this
  · have hpair := hrun.symm.trans hA
    have ha2 : a' = a2 := congrArg Prod.fst hpair
    have hi2 : i = i2 := by
      have hsnd := congrArg Prod.snd hpair
      simpa using hsnd
    subst ha2
    subst hi2
    have hlt : i < a'.max_size := hI.mem_vl_lt him
    have hv : (getE a' i).valid = true := hI.valid_of_mem_vl him
    refine ⟨hlt, ?_⟩
    simp only [get_element]
    rw [if_neg (Nat.not_le.mpr hlt)]
    simp [hv, hdata]

/-- Witness for C10's theorem: `push_back 7` on a fresh capacity-1 arena
succeeds with index 0 and `get_element 0` then returns 7. -/
theorem insert_returns_index_of_value_witness :
    0 < get_max_size fullOne ∧ get_element fullOne 0 = some 7 :=
  insert_returns_index_of_value (newD 1) [] [0] (InsOp.pushBack 7) fullOne 0
    (by decide) (by decide) rfl

end QuickArrayModel
